import Mathlib

/-!
Verification of the credential re-signing core of the capx-tg backend
(src/backend/controllers/verifyController.js, function verifyInitData).

The JavaScript source receives a Telegram WebApp initData string, parses it
with URLSearchParams, verifies the Telegram HMAC chain against BOT_TOKEN, and,
on success, appends a client_id pair and re-signs the payload with
CLIENT_SECRET using the same two-step HMAC-SHA256 derivation.

Modelling choices, each tied to the concrete library semantics the source
relies on:

* A JavaScript string is a list of UTF-16 code units (List Nat, each below
  2^16 for well-formed data; the model is total on all naturals).
* URLSearchParams string parsing follows the WHATWG urlencoded parser:
  UTF-8 encode the input, strip one leading question mark, split on the
  ampersand byte, split each nonempty sequence on its first equals byte,
  replace plus bytes by spaces, percent-decode (invalid escapes are kept
  literally), then UTF-8 decode with replacement characters.
* URLSearchParams.sort is a stable sort comparing names by UTF-16 code
  units, per the WHATWG URL standard.
* URLSearchParams.toString follows the WHATWG urlencoded serializer
  (space becomes plus, bytes outside the safe set are percent-encoded with
  uppercase hex).
* createHmac is HMAC-SHA256 over byte lists; string arguments are UTF-8
  encoded; digest() yields raw bytes, digest(hex) lowercase hex.
* Reading an absent environment variable gives undefined; calling
  hmac.update(undefined) throws, which the catch block turns into the
  500 server-error response; URLSearchParams.append coerces undefined to
  the literal string "undefined".
-/

namespace CapxTg

/-- A JavaScript string, modelled as its list of UTF-16 code units. -/
abbrev JSString := List Nat

/-- A decoded name/value pair held by a URLSearchParams object. -/
abbrev Pair := JSString × JSString

/-- Code units of an ASCII Lean string literal, for writing the constant
strings of the source (such as the key names). -/
def ascii (s : String) : JSString := s.data.map Char.toNat

/-- Concatenation of a list of lists. -/
def concatAll : List (List Nat) → List Nat
  | [] => []
  | x :: xs => x ++ concatAll xs

/-- Join a list of lists with a separator list between consecutive elements. -/
def joinSep (sep : List Nat) : List (List Nat) → List Nat
  | [] => []
  | [x] => x
  | x :: y :: xs => x ++ sep ++ joinSep sep (y :: xs)

/-- Lexicographic comparison of code-unit (or byte) sequences. This is the
comparison URLSearchParams.sort performs on names (code unit by code unit). -/
def lexLe : List Nat → List Nat → Bool
  | [], _ => true
  | _ :: _, [] => false
  | a :: xs, b :: ys => if a < b then true else if b < a then false else lexLe xs ys

/-! ## UTF-16 code units, Unicode scalar values, UTF-8 bytes -/

/-- Convert UTF-16 code units to Unicode scalar values, pairing surrogates;
an unpaired surrogate becomes U+FFFD, exactly as when a JavaScript string is
converted to UTF-8. -/
def cuToScalars : List Nat → List Nat
  | [] => []
  | [u] => if u < 0xD800 ∨ 0xDFFF < u then [u] else [0xFFFD]
  | u :: u2 :: us =>
    if u < 0xD800 ∨ 0xDFFF < u then u :: cuToScalars (u2 :: us)
    else if u ≤ 0xDBFF then
      if 0xDC00 ≤ u2 ∧ u2 ≤ 0xDFFF then
        (0x10000 + (u - 0xD800) * 1024 + (u2 - 0xDC00)) :: cuToScalars us
      else 0xFFFD :: cuToScalars (u2 :: us)
    else 0xFFFD :: cuToScalars (u2 :: us)

/-- Convert Unicode scalar values back to UTF-16 code units (supplementary
scalars become surrogate pairs). -/
def scalarsToCU : List Nat → List Nat
  | [] => []
  | c :: cs =>
    (if c < 0x10000 then [c]
     else [0xD800 + (c - 0x10000) / 1024, 0xDC00 + (c - 0x10000) % 1024]) ++ scalarsToCU cs

/-- UTF-8 encoding of one Unicode scalar value. -/
def utf8EncCp (c : Nat) : List Nat :=
  if c ≤ 0x7F then [c]
  else if c ≤ 0x7FF then [192 + c / 64, 128 + c % 64]
  else if c ≤ 0xFFFF then [224 + c / 4096, 128 + c / 64 % 64, 128 + c % 64]
  else [240 + c / 262144, 128 + c / 4096 % 64, 128 + c / 64 % 64, 128 + c % 64]

/-- UTF-8 encoding of a JavaScript string (unpaired surrogates become the
replacement character, as in TextEncoder and Node buffers). -/
def utf8OfStr (s : JSString) : List Nat := concatAll ((cuToScalars s).map utf8EncCp)

/-- Sequence length announced by a UTF-8 lead byte: 1 for ASCII, 2 to 4 for
multi-byte leads, 0 for a byte that can never start a sequence. -/
def leadKind (b : Nat) : Nat :=
  if b ≤ 0x7F then 1
  else if b < 0xC2 then 0
  else if b ≤ 0xDF then 2
  else if b ≤ 0xEF then 3
  else if b ≤ 0xF4 then 4
  else 0

/-- Whether a byte is a plain UTF-8 continuation byte. -/
def contOK (b : Nat) : Bool := decide (0x80 ≤ b ∧ b ≤ 0xBF)

/-- First-continuation check of a three-byte sequence, with the WHATWG
boundaries that exclude overlong forms and surrogate encodings. -/
def cont3a (b b1 : Nat) : Bool :=
  decide ((if b = 0xE0 then 0xA0 else 0x80) ≤ b1 ∧ b1 ≤ (if b = 0xED then 0x9F else 0xBF))

/-- First-continuation check of a four-byte sequence, with the WHATWG
boundaries that exclude overlong forms and values above U+10FFFF. -/
def cont4a (b b1 : Nat) : Bool :=
  decide ((if b = 0xF0 then 0x90 else 0x80) ≤ b1 ∧ b1 ≤ (if b = 0xF4 then 0x8F else 0xBF))

/-- Scalar value assembled from a two-byte sequence. -/
def cp2 (b b1 : Nat) : Nat := (b % 32) * 64 + b1 % 64

/-- Scalar value assembled from a three-byte sequence. -/
def cp3 (b b1 b2 : Nat) : Nat := (b % 16) * 4096 + (b1 % 64) * 64 + b2 % 64

/-- Scalar value assembled from a four-byte sequence. -/
def cp4 (b b1 b2 b3 : Nat) : Nat :=
  (b % 8) * 262144 + (b1 % 64) * 4096 + (b2 % 64) * 64 + b3 % 64

/-- UTF-8 decoding of a byte list into Unicode scalar values, following the
WHATWG UTF-8 decoder: the boundary checks reject overlong forms, surrogate
encodings and values above U+10FFFF; a malformed or truncated sequence yields
U+FFFD and decoding resumes at the offending byte. The list patterns spell
out the truncated-tail cases so the recursion stays structural. -/
def utf8Dec : List Nat → List Nat
  | [] => []
  | [b] => if leadKind b = 1 then [b] else [0xFFFD]
  | [b, b1] =>
    if leadKind b = 1 then b :: utf8Dec [b1]
    else if leadKind b = 2 then
      if contOK b1 then [cp2 b b1] else 0xFFFD :: utf8Dec [b1]
    else if leadKind b = 3 then
      if cont3a b b1 then [0xFFFD] else 0xFFFD :: utf8Dec [b1]
    else if leadKind b = 4 then
      if cont4a b b1 then [0xFFFD] else 0xFFFD :: utf8Dec [b1]
    else 0xFFFD :: utf8Dec [b1]
  | [b, b1, b2] =>
    if leadKind b = 1 then b :: utf8Dec [b1, b2]
    else if leadKind b = 2 then
      if contOK b1 then cp2 b b1 :: utf8Dec [b2] else 0xFFFD :: utf8Dec [b1, b2]
    else if leadKind b = 3 then
      if cont3a b b1 then
        if contOK b2 then [cp3 b b1 b2] else 0xFFFD :: utf8Dec [b2]
      else 0xFFFD :: utf8Dec [b1, b2]
    else if leadKind b = 4 then
      if cont4a b b1 then
        if contOK b2 then [0xFFFD] else 0xFFFD :: utf8Dec [b2]
      else 0xFFFD :: utf8Dec [b1, b2]
    else 0xFFFD :: utf8Dec [b1, b2]
  | b :: b1 :: b2 :: b3 :: bs =>
    if leadKind b = 1 then b :: utf8Dec (b1 :: b2 :: b3 :: bs)
    else if leadKind b = 2 then
      if contOK b1 then cp2 b b1 :: utf8Dec (b2 :: b3 :: bs)
      else 0xFFFD :: utf8Dec (b1 :: b2 :: b3 :: bs)
    else if leadKind b = 3 then
      if cont3a b b1 then
        if contOK b2 then cp3 b b1 b2 :: utf8Dec (b3 :: bs)
        else 0xFFFD :: utf8Dec (b2 :: b3 :: bs)
      else 0xFFFD :: utf8Dec (b1 :: b2 :: b3 :: bs)
    else if leadKind b = 4 then
      if cont4a b b1 then
        if contOK b2 then
          if contOK b3 then cp4 b b1 b2 b3 :: utf8Dec bs
          else 0xFFFD :: utf8Dec (b3 :: bs)
        else 0xFFFD :: utf8Dec (b2 :: b3 :: bs)
      else 0xFFFD :: utf8Dec (b1 :: b2 :: b3 :: bs)
    else 0xFFFD :: utf8Dec (b1 :: b2 :: b3 :: bs)

/-- Decode a byte list to a JavaScript string: UTF-8 decode to scalar values,
then re-serialize as UTF-16 code units. -/
def strOfBytes (bs : List Nat) : JSString := scalarsToCU (utf8Dec bs)

/-! ## The WHATWG urlencoded parser and serializer -/

/-- Split a byte list on a separator byte; the separators are dropped and the
(possibly empty) chunks between them are returned. -/
def splitOnByte (c : Nat) : List Nat → List (List Nat)
  | [] => [[]]
  | b :: bs =>
    let r := splitOnByte c bs
    if b = c then [] :: r
    else
      match r with
      | [] => [[b]]
      | g :: gs => (b :: g) :: gs

/-- Split a name/value sequence on its first equals byte (0x3D); with no
equals byte the whole sequence is the name and the value is empty. -/
def splitNameValue : List Nat → List Nat × List Nat
  | [] => ([], [])
  | b :: bs =>
    if b = 61 then ([], bs)
    else
      let nv := splitNameValue bs
      (b :: nv.1, nv.2)

/-- Whether a byte is an ASCII hex digit. -/
def isHexByte (b : Nat) : Bool :=
  decide (48 ≤ b ∧ b ≤ 57) || decide (65 ≤ b ∧ b ≤ 70) || decide (97 ≤ b ∧ b ≤ 102)

/-- Numeric value of an ASCII hex digit byte. -/
def hexVal (b : Nat) : Nat :=
  if b ≤ 57 then b - 48 else if b ≤ 70 then b - 55 else b - 87

/-- Percent-decoding: a percent byte followed by two hex digits becomes the
denoted byte; any other byte, including a percent byte without two hex
digits after it, is kept literally. -/
def percentDecode : List Nat → List Nat
  | [] => []
  | [b] => [b]
  | [b, a] => b :: percentDecode [a]
  | b :: a :: c :: rest =>
    if b = 37 ∧ isHexByte a ∧ isHexByte c then
      (hexVal a * 16 + hexVal c) :: percentDecode rest
    else b :: percentDecode (a :: c :: rest)

/-- The urlencoded parser replaces plus bytes with spaces before
percent-decoding. -/
def plusToSpace (bs : List Nat) : List Nat := bs.map fun b => if b = 43 then 32 else b

/-- Decode one name or value component: plus to space, percent-decode, then
UTF-8 decode into a string. -/
def decodeComponent (bs : List Nat) : JSString := strOfBytes (percentDecode (plusToSpace bs))

/-- Strip one leading question-mark byte, as the URLSearchParams string
constructor does. -/
def stripQM (bs : List Nat) : List Nat :=
  match bs with
  | [] => []
  | b :: rest => if b = 63 then rest else b :: rest

/-- The URLSearchParams string constructor: strip one leading question mark,
then run the WHATWG urlencoded parser over the UTF-8 bytes of the input.
Parsing is total: every string yields a (possibly empty) pair list. -/
def parseUrlencoded (s : JSString) : List Pair :=
  (splitOnByte 38 (stripQM (utf8OfStr s))).filterMap fun seq =>
    if seq.isEmpty then none
    else
      let nv := splitNameValue seq
      some (decodeComponent nv.1, decodeComponent nv.2)

/-- Uppercase hex digit byte for a value below 16. -/
def hexUpper (d : Nat) : Nat := if d < 10 then 48 + d else 55 + d

/-- Whether a byte is left unescaped by the urlencoded serializer:
asterisk, hyphen, period, digits, ASCII letters, underscore. -/
def isSafeByte (b : Nat) : Bool :=
  decide (b = 42) || decide (b = 45) || decide (b = 46) || decide (48 ≤ b ∧ b ≤ 57) ||
  decide (65 ≤ b ∧ b ≤ 90) || decide (b = 95) || decide (97 ≤ b ∧ b ≤ 122)

/-- Serialize one byte per the urlencoded serializer: space becomes plus,
safe bytes stay, everything else is percent-encoded with uppercase hex. -/
def encodeByte (b : Nat) : List Nat :=
  if b = 32 then [43]
  else if isSafeByte b then [b]
  else [37, hexUpper (b / 16), hexUpper (b % 16)]

/-- Serialize a component: encode each UTF-8 byte. -/
def serializeComponent (bs : List Nat) : List Nat := concatAll (bs.map encodeByte)

/-- Wire form of one pair: encoded name, equals byte, encoded value. -/
def encodedPair (p : Pair) : List Nat :=
  serializeComponent (utf8OfStr p.1) ++ [61] ++ serializeComponent (utf8OfStr p.2)

/-- URLSearchParams.toString: pairs in their current order, joined with
ampersands. The output is pure ASCII, so its code units are its bytes. -/
def serializePairs (ps : List Pair) : JSString := joinSep [38] (ps.map encodedPair)

/-! ## URLSearchParams operations used by the controller -/

/-- URLSearchParams.get: the value of the first pair with the given name,
none when absent (JavaScript null). -/
def getParam : List Pair → JSString → Option JSString
  | [], _ => none
  | p :: ps, k => if p.1 = k then some p.2 else getParam ps k

/-- URLSearchParams.delete: remove every pair with the given name. -/
def deleteParam : List Pair → JSString → List Pair
  | [], _ => []
  | p :: ps, k => if p.1 = k then deleteParam ps k else p :: deleteParam ps k

/-- Stable insertion used by the sort model: the new element goes before the
first element it compares less-or-equal to, hence after earlier elements with
an equal key. -/
def insPair (le : Pair → Pair → Bool) (x : Pair) : List Pair → List Pair
  | [] => [x]
  | y :: ys => if le x y then x :: y :: ys else y :: insPair le x ys

/-- Stable insertion sort over pairs with respect to a comparison. -/
def isortPairs (le : Pair → Pair → Bool) : List Pair → List Pair
  | [] => []
  | x :: xs => insPair le x (isortPairs le xs)

/-- The comparison of URLSearchParams.sort: names by UTF-16 code units. -/
def keyLeCu (p q : Pair) : Bool := lexLe p.1 q.1

/-- URLSearchParams.sort: stable sort of the pairs by name, comparing
code units. -/
def sortPairs : List Pair → List Pair := isortPairs keyLeCu

/-- The reserved signature key of the protocol. -/
def hashKey : JSString := ascii "hash"

/-- The client identifier key appended by the controller. -/
def clientIdKey : JSString := ascii "client_id"

/-- The data check string built by the controller: concatenate
name=value followed by a newline for each pair, then drop the final
character (the slice(0,-1) of the source). Empty input yields the empty
string. -/
def dataCheckStringOf (ps : List Pair) : JSString :=
  (ps.foldl (fun acc p => acc ++ p.1 ++ [61] ++ p.2 ++ [10]) []).dropLast

/-- One rendered line of the check string. -/
def renderPair (p : Pair) : JSString := p.1 ++ [61] ++ p.2

/-- The canonicalization the controller applies twice: remove every hash
pair, stable-sort by name, and build the check string. -/
def canonicalCheckString (ps : List Pair) : JSString :=
  dataCheckStringOf (sortPairs (deleteParam ps hashKey))

/-! ## SHA-256 and HMAC-SHA256 over byte lists -/

/-- Reduction to a 32-bit word. -/
def w32 (x : Nat) : Nat := x % 4294967296

/-- Right rotation of a 32-bit word. -/
def rotr32 (n x : Nat) : Nat := w32 ((x >>> n) ||| (x <<< (32 - n)))

/-- The Sigma0 mixing function of the SHA-256 compression. -/
def bigSigma0 (x : Nat) : Nat := rotr32 2 x ^^^ rotr32 13 x ^^^ rotr32 22 x

/-- The Sigma1 mixing function of the SHA-256 compression. -/
def bigSigma1 (x : Nat) : Nat := rotr32 6 x ^^^ rotr32 11 x ^^^ rotr32 25 x

/-- The sigma0 function of the SHA-256 message schedule. -/
def smallSigma0 (x : Nat) : Nat := rotr32 7 x ^^^ rotr32 18 x ^^^ (x >>> 3)

/-- The sigma1 function of the SHA-256 message schedule. -/
def smallSigma1 (x : Nat) : Nat := rotr32 17 x ^^^ rotr32 19 x ^^^ (x >>> 10)

/-- The choice function of the SHA-256 compression. -/
def chFn (x y z : Nat) : Nat := (x &&& y) ^^^ ((x ^^^ 4294967295) &&& z)

/-- The majority function of the SHA-256 compression. -/
def majFn (x y z : Nat) : Nat := (x &&& y) ^^^ (x &&& z) ^^^ (y &&& z)

/-- The 64 SHA-256 round constants. -/
def shaK : List Nat :=
  [1116352408, 1899447441, 3049323471, 3921009573, 961987163, 1508970993,
   2453635748, 2870763221, 3624381080, 310598401, 607225278, 1426881987,
   1925078388, 2162078206, 2614888103, 3248222580, 3835390401, 4022224774,
   264347078, 604807628, 770255983, 1249150122, 1555081692, 1996064986,
   2554220882, 2821834349, 2952996808, 3210313671, 3336571891, 3584528711,
   113926993, 338241895, 666307205, 773529912, 1294757372, 1396182291,
   1695183700, 1986661051, 2177026350, 2456956037, 2730485921, 2820302411,
   3259730800, 3345764771, 3516065817, 3600352804, 4094571909, 275423344,
   430227734, 506948616, 659060556, 883997877, 958139571, 1322822218,
   1537002063, 1747873779, 1955562222, 2024104815, 2227730452, 2361852424,
   2428436474, 2756734187, 3204031479, 3329325298]

/-- The eight working variables of SHA-256. -/
structure Sha8 where
  a : Nat
  b : Nat
  c : Nat
  d : Nat
  e : Nat
  f : Nat
  g : Nat
  h : Nat

/-- The SHA-256 initial hash value. -/
def shaH0 : Sha8 :=
  ⟨1779033703, 3144134277, 1013904242, 2773480762, 1359893119, 2600822924, 528734635, 1541459225⟩

/-- The 16 big-endian words of a 64-byte block. -/
def wordsOfBlock (blk : List Nat) : List Nat :=
  (List.range 16).map fun i =>
    blk.getD (4 * i) 0 * 16777216 + blk.getD (4 * i + 1) 0 * 65536 +
    blk.getD (4 * i + 2) 0 * 256 + blk.getD (4 * i + 3) 0

/-- One SHA-256 compression round. The second component is the sliding
16-word window of the message schedule, oldest word first: the head is the
current schedule word and the appended word is the next one generated by the
standard recurrence, so the rounds consume exactly the words W0 to W63. -/
def roundStep (acc : Sha8 × List Nat) (k : Nat) : Sha8 × List Nat :=
  let s := acc.1
  let win := acc.2
  let t1 := w32 (s.h + bigSigma1 s.e + chFn s.e s.f s.g + k + win.headD 0)
  let t2 := w32 (bigSigma0 s.a + majFn s.a s.b s.c)
  let nw := w32 (smallSigma1 (win.getD 14 0) + win.getD 9 0 +
                 smallSigma0 (win.getD 1 0) + win.getD 0 0)
  (⟨w32 (t1 + t2), s.a, s.b, s.c, w32 (s.d + t1), s.e, s.f, s.g⟩, win.tail ++ [nw])

/-- Compress one 64-byte block into the running hash state. -/
def compressBlock (s : Sha8) (blk : List Nat) : Sha8 :=
  let t := (shaK.foldl roundStep (s, wordsOfBlock blk)).1
  ⟨w32 (s.a + t.a), w32 (s.b + t.b), w32 (s.c + t.c), w32 (s.d + t.d),
   w32 (s.e + t.e), w32 (s.f + t.f), w32 (s.g + t.g), w32 (s.h + t.h)⟩

/-- SHA-256 padding: append 0x80, zero bytes to 56 mod 64, then the 64-bit
big-endian bit length. -/
def padBytes (msg : List Nat) : List Nat :=
  let L := msg.length
  let k := (120 - (L + 1) % 64) % 64
  msg ++ [128] ++ List.replicate k 0 ++
    [56, 48, 40, 32, 24, 16, 8, 0].map fun sh => (8 * L) >>> sh % 256

/-- Split a byte list into consecutive 64-byte blocks (the input length is a
multiple of 64 after padding; a shorter remainder would be dropped). -/
def toBlocks (l : List Nat) : List (List Nat) :=
  (l.foldl
    (fun acc b =>
      if acc.2.length = 63 then (acc.1 ++ [acc.2 ++ [b]], [])
      else (acc.1, acc.2 ++ [b]))
    (([] : List (List Nat)), ([] : List Nat))).1

/-- Big-endian bytes of a 32-bit word. -/
def bytesOfWord (w : Nat) : List Nat :=
  [w / 16777216 % 256, w / 65536 % 256, w / 256 % 256, w % 256]

/-- SHA-256 of a byte list, as 32 raw digest bytes. -/
def sha256 (msg : List Nat) : List Nat :=
  let fin := (toBlocks (padBytes msg)).foldl compressBlock shaH0
  bytesOfWord fin.a ++ bytesOfWord fin.b ++ bytesOfWord fin.c ++ bytesOfWord fin.d ++
  bytesOfWord fin.e ++ bytesOfWord fin.f ++ bytesOfWord fin.g ++ bytesOfWord fin.h

/-- HMAC-SHA256 over byte lists (block size 64): keys longer than a block are
hashed, shorter keys are zero-padded; inner pad 0x36, outer pad 0x5C. -/
def hmacSha256 (key msg : List Nat) : List Nat :=
  let k0 := if 64 < key.length then sha256 key else key
  let kp := k0 ++ List.replicate (64 - k0.length) 0
  sha256 ((kp.map fun b => b ^^^ 92) ++ sha256 ((kp.map fun b => b ^^^ 54) ++ msg))

/-- Lowercase hex digit character code for a value below 16. -/
def hexLower (d : Nat) : Nat := if d < 10 then 48 + d else 87 + d

/-- digest(hex) of Node: the lowercase hexadecimal rendering of a byte list,
as a JavaScript string. -/
def toHexStr (bs : List Nat) : JSString := concatAll (bs.map fun b => [hexLower (b / 16), hexLower (b % 16)])

/-! ## The controller -/

/-- The three environment values the controller reads; none models an unset
environment variable (JavaScript undefined). -/
structure Env where
  BOT_TOKEN : Option JSString
  CLIENT_ID : Option JSString
  CLIENT_SECRET : Option JSString

/-- The observable outcomes of one request to the controller:
the 200 response carrying the re-signed initData string, the 401
Invalid InitData rejection, and the 500 response produced by the catch
block when the try body throws. -/
inductive ReissueResult where
  | success (initData : JSString)
  | invalidSignature
  | serverError
deriving DecidableEq

/-- The first hash of the source: hex digest of HMAC-SHA256 keyed by the raw
digest of HMAC-SHA256 with key WebAppData over BOT_TOKEN, applied to the data
check string. Mirrors lines 22 to 25 of verifyController.js. -/
def codeCalculatedHash (botToken dcs : JSString) : JSString :=
  toHexStr (hmacSha256 (hmacSha256 (ascii "WebAppData") (utf8OfStr botToken)) (utf8OfStr dcs))

/-- The second hash of the source: the same two-step derivation applied to
CLIENT_SECRET and the augmented check string. Mirrors lines 47 to 50 of
verifyController.js. -/
def codeCentralHash (clientSecret dcs : JSString) : JSString :=
  toHexStr (hmacSha256 (hmacSha256 (ascii "WebAppData") (utf8OfStr clientSecret)) (utf8OfStr dcs))

/-- The argument URLSearchParams.append receives for the client identifier:
the configured value, or the string "undefined" when CLIENT_ID is unset,
because JavaScript coerces undefined to that literal string. -/
def clientIdOf (o : Option JSString) : JSString :=
  match o with
  | some c => c
  | none => ascii "undefined"

/-- The verifyInitData controller body. Step for step with the source:
parse initData, read the first hash pair, delete all hash pairs, sort, build
the check string; an unset BOT_TOKEN makes hmac.update throw, which the catch
block reports as the server error. A mismatched (or absent) hash yields the
401 rejection. Otherwise the client_id pair is appended (coerced by
clientIdOf), the collection is re-sorted, re-signed with CLIENT_SECRET
(unset CLIENT_SECRET throws at hmac.update, hence the server error), the new
hash appended, and the serialized collection returned. -/
def verifyInitData (env : Env) (initData : JSString) : ReissueResult :=
  let urlParams := parseUrlencoded initData
  let hash := getParam urlParams hashKey
  let afterDelete := deleteParam urlParams hashKey
  let sorted1 := sortPairs afterDelete
  let dataCheckString := dataCheckStringOf sorted1
  match env.BOT_TOKEN with
  | none => .serverError
  | some bt =>
    let calculatedHash := codeCalculatedHash bt dataCheckString
    if hash ≠ some calculatedHash then .invalidSignature
    else
      let sorted2 := sortPairs (sorted1 ++ [(clientIdKey, clientIdOf env.CLIENT_ID)])
      let dataCheckString2 := dataCheckStringOf sorted2
      match env.CLIENT_SECRET with
      | none => .serverError
      | some cs =>
        let centralHash := codeCentralHash cs dataCheckString2
        .success (serializePairs (sorted2 ++ [(hashKey, centralHash)]))

/-- The success payload of a call, when there is one. -/
def reissueOut (env : Env) (initData : JSString) : Option JSString :=
  match verifyInitData env initData with
  | .success out => some out
  | _ => none

/-! ## Order lemmas for the code-unit comparison -/

theorem lexLe_refl (l : List Nat) : lexLe l l = true := by
  induction l with
  | nil => rfl
  | cons a xs ih => simp [lexLe, ih]

theorem lexLe_total (a b : List Nat) : lexLe a b = true ∨ lexLe b a = true := by
  induction a generalizing b with
  | nil => exact Or.inl rfl
  | cons x xs ih =>
    cases b with
    | nil => exact Or.inr rfl
    | cons y ys =>
      rcases Nat.lt_trichotomy x y with h | h | h
      · left; simp [lexLe, h]
      · subst h
        rcases ih ys with h2 | h2
        · left; simp [lexLe, h2]
        · right; simp [lexLe, h2]
      · right; simp [lexLe, h]

theorem lexLe_trans {a b c : List Nat} (h1 : lexLe a b = true) (h2 : lexLe b c = true) :
    lexLe a c = true := by
  induction a generalizing b c with
  | nil => rfl
  | cons x xs ih =>
    cases b with
    | nil => simp [lexLe] at h1
    | cons y ys =>
      cases c with
      | nil => simp [lexLe] at h2
      | cons z zs =>
        simp only [lexLe] at h1 h2 ⊢
        rcases Nat.lt_trichotomy x y with hxy | hxy | hxy
        · rcases Nat.lt_trichotomy y z with hyz | hyz | hyz
          · simp [show x < z by omega]
          · subst hyz; simp [hxy]
          · rw [if_neg (by omega), if_pos hyz] at h2; exact absurd h2 (by simp)
        · subst hxy
          rcases Nat.lt_trichotomy x z with hyz | hyz | hyz
          · simp [hyz]
          · subst hyz
            rw [if_neg (Nat.lt_irrefl x), if_neg (Nat.lt_irrefl x)] at h1 h2 ⊢
            exact ih h1 h2
          · rw [if_neg (by omega), if_pos hyz] at h2; exact absurd h2 (by simp)
        · rw [if_neg (by omega), if_pos hxy] at h1; exact absurd h1 (by simp)

theorem lexLe_antisymm {a b : List Nat} (h1 : lexLe a b = true) (h2 : lexLe b a = true) :
    a = b := by
  induction a generalizing b with
  | nil =>
    cases b with
    | nil => rfl
    | cons y ys => simp [lexLe] at h2
  | cons x xs ih =>
    cases b with
    | nil => simp [lexLe] at h1
    | cons y ys =>
      simp only [lexLe] at h1 h2
      rcases Nat.lt_trichotomy x y with hxy | hxy | hxy
      · rw [if_neg (by omega), if_pos hxy] at h2; exact absurd h2 (by simp)
      · subst hxy
        rw [if_neg (Nat.lt_irrefl x), if_neg (Nat.lt_irrefl x)] at h1 h2
        rw [ih h1 h2]
      · rw [if_neg (by omega), if_pos hxy] at h1; exact absurd h1 (by simp)

theorem lexLe_of_not_lexLe {a b : List Nat} (h : ¬ lexLe a b = true) : lexLe b a = true :=
  (lexLe_total a b).resolve_left h

theorem ne_of_not_lexLe {a b : List Nat} (h : ¬ lexLe a b = true) : a ≠ b := by
  intro he; subst he; exact h (lexLe_refl a)

/-! ## Lemmas about the URLSearchParams sort model -/

/-- The ordering property the sorted pair lists satisfy. -/
def KLe (p q : Pair) : Prop := lexLe p.1 q.1 = true

instance : DecidableRel KLe := fun p q => by unfold KLe; infer_instance

theorem insPair_perm (x : Pair) (l : List Pair) :
    (insPair keyLeCu x l).Perm (x :: l) := by
  induction l with
  | nil => exact List.Perm.refl _
  | cons y ys ih =>
    by_cases h : keyLeCu x y
    · rw [insPair, if_pos h]
    · rw [insPair, if_neg h]
      exact (ih.cons y).trans (List.Perm.swap x y ys)

theorem sortPairs_perm (l : List Pair) : (sortPairs l).Perm l := by
  induction l with
  | nil => exact List.Perm.refl _
  | cons x xs ih =>
    exact (insPair_perm x (isortPairs keyLeCu xs)).trans (ih.cons x)

theorem pairwise_insPair {x : Pair} {l : List Pair} (h : List.Pairwise KLe l) :
    List.Pairwise KLe (insPair keyLeCu x l) := by
  induction l with
  | nil => simp [insPair, List.Pairwise]
  | cons y ys ih =>
    by_cases hle : keyLeCu x y
    · rw [insPair, if_pos hle]
      refine List.Pairwise.cons ?_ h
      intro q hq
      rcases List.mem_cons.mp hq with rfl | hq
      · exact hle
      · exact lexLe_trans hle (List.rel_of_pairwise_cons h hq)
    · rw [insPair, if_neg hle]
      have hyx : KLe y x := lexLe_of_not_lexLe (by simpa [keyLeCu] using hle)
      refine List.Pairwise.cons ?_ (ih h.of_cons)
      intro q hq
      rcases List.mem_cons.mp ((insPair_perm x ys).mem_iff.mp hq) with rfl | hq
      · exact hyx
      · exact List.rel_of_pairwise_cons h hq

theorem sortPairs_pairwise (l : List Pair) : List.Pairwise KLe (sortPairs l) := by
  induction l with
  | nil => simp [sortPairs, isortPairs]
  | cons x xs ih => exact pairwise_insPair ih

theorem insPair_of_forall_le {x : Pair} {l : List Pair}
    (h : ∀ q ∈ l, KLe x q) : insPair keyLeCu x l = x :: l := by
  cases l with
  | nil => rfl
  | cons y ys => exact if_pos (h y (List.mem_cons_self y ys))

theorem sortPairs_eq_self {l : List Pair} (h : List.Pairwise KLe l) : sortPairs l = l := by
  induction l with
  | nil => rfl
  | cons x xs ih =>
    show insPair keyLeCu x (isortPairs keyLeCu xs) = x :: xs
    have hxs : isortPairs keyLeCu xs = xs := ih h.of_cons
    rw [hxs]
    exact insPair_of_forall_le fun q hq => List.rel_of_pairwise_cons h hq

theorem sortPairs_idem (l : List Pair) : sortPairs (sortPairs l) = sortPairs l :=
  sortPairs_eq_self (sortPairs_pairwise l)

/-- Stability of the sort model: for every key, the subsequence of pairs
with exactly that key is unchanged. -/
theorem sortPairs_filter_key (l : List Pair) (k : JSString) :
    (sortPairs l).filter (fun p => decide (p.1 = k)) =
      l.filter (fun p => decide (p.1 = k)) := by
  induction l with
  | nil => rfl
  | cons x xs ih =>
    show (insPair keyLeCu x (sortPairs xs)).filter _ = _
    have step : ∀ m : List Pair,
        (insPair keyLeCu x m).filter (fun p => decide (p.1 = k)) =
          (x :: m).filter (fun p => decide (p.1 = k)) := by
      intro m
      induction m with
      | nil => rfl
      | cons y ys ihm =>
        by_cases hle : keyLeCu x y
        · rw [insPair, if_pos hle]
        · rw [insPair, if_neg hle]
          have hxy : x.1 ≠ y.1 := ne_of_not_lexLe (by simpa [keyLeCu] using hle)
          by_cases hxk : x.1 = k
          · have hyk : ¬ y.1 = k := fun hy => hxy (hxk.trans hy.symm)
            simp [List.filter_cons, hxk, hyk, ihm]
          · simp [List.filter_cons, hxk, ihm]
    rw [step (sortPairs xs)]
    simp [List.filter_cons, ih]

/-! ## Lemmas about get and delete -/

theorem deleteParam_eq_filter (l : List Pair) (k : JSString) :
    deleteParam l k = l.filter (fun p => decide (p.1 ≠ k)) := by
  induction l with
  | nil => rfl
  | cons x xs ih =>
    by_cases h : x.1 = k
    · simp [deleteParam, h, ih, List.filter_cons]
    · simp [deleteParam, h, ih, List.filter_cons]

theorem deleteParam_append (l1 l2 : List Pair) (k : JSString) :
    deleteParam (l1 ++ l2) k = deleteParam l1 k ++ deleteParam l2 k := by
  simp [deleteParam_eq_filter, List.filter_append]

theorem deleteParam_eq_self {l : List Pair} {k : JSString}
    (h : ∀ p ∈ l, p.1 ≠ k) : deleteParam l k = l := by
  rw [deleteParam_eq_filter]
  exact List.filter_eq_self.mpr fun p hp => by simpa using h p hp

theorem deleteParam_not_mem_key (l : List Pair) (k : JSString) :
    ∀ p ∈ deleteParam l k, p.1 ≠ k := by
  intro p hp
  rw [deleteParam_eq_filter] at hp
  simpa using (List.of_mem_filter hp)

theorem getParam_eq_none {l : List Pair} {k : JSString}
    (h : ∀ p ∈ l, p.1 ≠ k) : getParam l k = none := by
  induction l with
  | nil => rfl
  | cons x xs ih =>
    rw [getParam, if_neg (h x (List.mem_cons_self x xs))]
    exact ih fun p hp => h p (List.mem_cons_of_mem x hp)

theorem getParam_append_of_none {l1 l2 : List Pair} {k : JSString}
    (h : getParam l1 k = none) : getParam (l1 ++ l2) k = getParam l2 k := by
  induction l1 with
  | nil => rfl
  | cons x xs ih =>
    rw [getParam] at h
    by_cases hx : x.1 = k
    · rw [if_pos hx] at h; exact absurd h (by simp)
    · rw [if_neg hx] at h
      simpa [getParam, hx] using ih h

theorem getParam_last {l : List Pair} {k : JSString} {v : JSString}
    (h : ∀ p ∈ l, p.1 ≠ k) : getParam (l ++ [(k, v)]) k = some v := by
  rw [getParam_append_of_none (getParam_eq_none h), getParam, if_pos rfl]

/-! ## Shape lemmas for the controller -/

/-- The hash-stripped, sorted pair collection of the first phase. -/
def baseParams (s : JSString) : List Pair :=
  sortPairs (deleteParam (parseUrlencoded s) hashKey)

/-- The recomputed upstream signature of an input credential. -/
def upstreamMac (bt s : JSString) : JSString :=
  codeCalculatedHash bt (dataCheckStringOf (baseParams s))

/-- The pair collection after appending the client identifier and
re-sorting. -/
def reissuedParams (oci : Option JSString) (s : JSString) : List Pair :=
  sortPairs (baseParams s ++ [(clientIdKey, clientIdOf oci)])

/-- The wire string returned on success. -/
def reissuedOutStr (oci : Option JSString) (cs s : JSString) : JSString :=
  serializePairs (reissuedParams oci s ++
    [(hashKey, codeCentralHash cs (dataCheckStringOf (reissuedParams oci s)))])

theorem verifyInitData_bt_none {env : Env} {s : JSString}
    (h : env.BOT_TOKEN = none) : verifyInitData env s = .serverError := by
  obtain ⟨obt, oci, ocs⟩ := env
  cases h
  rfl

theorem verifyInitData_invalid {env : Env} {s bt : JSString}
    (hbt : env.BOT_TOKEN = some bt)
    (h : getParam (parseUrlencoded s) hashKey ≠ some (upstreamMac bt s)) :
    verifyInitData env s = .invalidSignature := by
  obtain ⟨obt, oci, ocs⟩ := env
  cases hbt
  simp only [upstreamMac, baseParams] at h
  simp only [verifyInitData]
  rw [if_pos h]

theorem verifyInitData_cs_none {env : Env} {s bt : JSString}
    (hbt : env.BOT_TOKEN = some bt) (hcs : env.CLIENT_SECRET = none)
    (h : getParam (parseUrlencoded s) hashKey = some (upstreamMac bt s)) :
    verifyInitData env s = .serverError := by
  obtain ⟨obt, oci, ocs⟩ := env
  cases hbt
  cases hcs
  simp only [upstreamMac, baseParams] at h
  simp only [verifyInitData]
  rw [if_neg (by simp [h])]

theorem verifyInitData_success_eq {env : Env} {s bt cs : JSString}
    (hbt : env.BOT_TOKEN = some bt) (hcs : env.CLIENT_SECRET = some cs)
    (h : getParam (parseUrlencoded s) hashKey = some (upstreamMac bt s)) :
    verifyInitData env s = .success (reissuedOutStr env.CLIENT_ID cs s) := by
  obtain ⟨obt, oci, ocs⟩ := env
  cases hbt
  cases hcs
  simp only [upstreamMac, baseParams] at h
  simp only [verifyInitData]
  rw [if_neg (by simp [h])]
  rfl

theorem verifyInitData_success_inv {env : Env} {s out : JSString}
    (h : verifyInitData env s = .success out) :
    ∃ bt cs, env.BOT_TOKEN = some bt ∧ env.CLIENT_SECRET = some cs ∧
      getParam (parseUrlencoded s) hashKey = some (upstreamMac bt s) ∧
      out = reissuedOutStr env.CLIENT_ID cs s := by
  obtain ⟨obt, oci, ocs⟩ := env
  cases obt with
  | none =>
    have h2 := @verifyInitData_bt_none ⟨none, oci, ocs⟩ s rfl
    rw [h2] at h
    exact absurd h (by simp)
  | some bt =>
    by_cases hc : getParam (parseUrlencoded s) hashKey = some (upstreamMac bt s)
    · cases ocs with
      | none =>
        have h2 := @verifyInitData_cs_none ⟨some bt, oci, none⟩ s bt rfl rfl hc
        rw [h2] at h
        exact absurd h (by simp)
      | some cs =>
        refine ⟨bt, cs, rfl, rfl, hc, ?_⟩
        have h2 := @verifyInitData_success_eq ⟨some bt, oci, some cs⟩ s bt cs rfl rfl hc
        rw [h2] at h
        injection h with h3
        exact h3.symm
    · have h2 := @verifyInitData_invalid ⟨some bt, oci, ocs⟩ s bt rfl hc
      rw [h2] at h
      exact absurd h (by simp)

/-! ## The check string as a newline join -/

theorem foldl_check (ps : List Pair) (acc : JSString) :
    ps.foldl (fun acc p => acc ++ p.1 ++ [61] ++ p.2 ++ [10]) acc =
      acc ++ concatAll (ps.map fun p => renderPair p ++ [10]) := by
  induction ps generalizing acc with
  | nil => simp [concatAll]
  | cons p ps ih =>
    simp only [List.foldl_cons, List.map_cons, concatAll, ih, renderPair]
    simp [List.append_assoc]

theorem concatAll_render_ne_nil (q : Pair) (qs : List Pair) :
    concatAll ((q :: qs).map fun r => renderPair r ++ [10]) ≠ [] := by
  simp only [List.map_cons, concatAll, renderPair]
  intro h
  have := congrArg List.length h
  simp [List.length_append] at this

/-- The check string of the source (concatenate and drop the last character)
coincides with the newline join of rendered pairs, with no trailing newline,
and the empty collection gives the empty string. -/
theorem dataCheckStringOf_eq_joinSep (ps : List Pair) :
    dataCheckStringOf ps = joinSep [10] (ps.map renderPair) := by
  rw [dataCheckStringOf, foldl_check, List.nil_append]
  induction ps with
  | nil => rfl
  | cons p ps ih =>
    cases ps with
    | nil =>
      simp only [List.map_cons, List.map_nil, concatAll, List.append_nil, joinSep]
      exact List.dropLast_concat
    | cons q qs =>
      simp only [List.map_cons, concatAll] at ih ⊢
      have hne : renderPair q ++ [10] ++ concatAll (qs.map fun r => renderPair r ++ [10]) ≠ [] := by
        simp
      rw [List.dropLast_append_of_ne_nil _ hne]
      simp only [joinSep]
      rw [← ih]

/-! ## Facts about hex digests -/

/-- Whether every character of a string is a lowercase hex digit. -/
def isLowerHex (s : JSString) : Bool :=
  s.all fun c => decide ((48 ≤ c ∧ c ≤ 57) ∨ (97 ≤ c ∧ c ≤ 102))

theorem bytesOfWord_lt (w : Nat) : ∀ b ∈ bytesOfWord w, b < 256 := by
  intro b hb
  simp only [bytesOfWord, List.mem_cons, List.not_mem_nil, or_false] at hb
  rcases hb with rfl | rfl | rfl | rfl <;> exact Nat.mod_lt _ (by omega)

theorem sha256_length (m : List Nat) : (sha256 m).length = 32 := by
  simp [sha256, bytesOfWord]

theorem sha256_bytes_lt (m : List Nat) : ∀ b ∈ sha256 m, b < 256 := by
  intro b hb
  simp only [sha256, List.mem_append] at hb
  rcases hb with ((((((h | h) | h) | h) | h) | h) | h) | h <;> exact bytesOfWord_lt _ b h

theorem hmacSha256_length (k m : List Nat) : (hmacSha256 k m).length = 32 := by
  rw [hmacSha256]
  exact sha256_length _

theorem toHexStr_length (bs : List Nat) : (toHexStr bs).length = 2 * bs.length := by
  induction bs with
  | nil => rfl
  | cons b bs ih =>
    simp only [toHexStr, List.map_cons, concatAll] at ih ⊢
    simp [ih]
    omega

theorem mem_concatAll {c : Nat} {ls : List (List Nat)} :
    c ∈ concatAll ls ↔ ∃ l ∈ ls, c ∈ l := by
  induction ls with
  | nil => simp [concatAll]
  | cons x xs ih => simp [concatAll, List.mem_append, ih]

theorem hexLower_mem (d : Nat) (hd : d < 16) :
    (48 ≤ hexLower d ∧ hexLower d ≤ 57) ∨ (97 ≤ hexLower d ∧ hexLower d ≤ 102) := by
  rw [hexLower]; split <;> [left; right] <;> omega

theorem isLowerHex_toHexStr {bs : List Nat} (h : ∀ b ∈ bs, b < 256) :
    isLowerHex (toHexStr bs) = true := by
  rw [isLowerHex, List.all_eq_true]
  intro c hc
  rw [toHexStr] at hc
  rcases mem_concatAll.mp hc with ⟨l, hl, hcl⟩
  rcases List.mem_map.mp hl with ⟨b, hb, rfl⟩
  have hblt := h b hb
  rcases List.mem_cons.mp hcl with rfl | hcl2
  · exact decide_eq_true (hexLower_mem (b / 16) (by omega))
  · rcases List.mem_cons.mp hcl2 with rfl | hcl3
    · exact decide_eq_true (hexLower_mem (b % 16) (by omega))
    · exact absurd hcl3 (List.not_mem_nil c)

/-! ## Claim C3: the two-step derivation -/

/-- Modelled from the spec: derive_key(secret) computes HMAC-SHA256 with key
WebAppData over the secret bytes and returns the raw binary digest. -/
def derive_key (secret : List Nat) : List Nat := hmacSha256 (ascii "WebAppData") secret

/-- Modelled from the spec: sign(check_string, derived_key) computes
HMAC-SHA256 keyed by the derived key over the UTF-8 bytes of the check
string and returns the lowercase hexadecimal digest. -/
def sign_spec (checkString : JSString) (derivedKey : List Nat) : JSString :=
  toHexStr (hmacSha256 derivedKey (utf8OfStr checkString))

/-- C3: both hashes the controller computes follow the fixed two-step
derivation: the derived key is the raw binary HMAC-SHA256 digest with key
WebAppData over the secret, and the signature is the lowercase hex digest of
HMAC-SHA256 with that derived key over the check string; the same derivation
serves the upstream verification and the downstream re-signing, and the
resulting signature is a 64-character lowercase hex string. -/
theorem C3_two_step_derivation (bt cs dcs : JSString) :
    codeCalculatedHash bt dcs = sign_spec dcs (derive_key (utf8OfStr bt)) ∧
    codeCentralHash cs dcs = sign_spec dcs (derive_key (utf8OfStr cs)) ∧
    (codeCalculatedHash bt dcs).length = 64 ∧
    isLowerHex (codeCalculatedHash bt dcs) = true := by
  refine ⟨rfl, rfl, ?_, ?_⟩
  · rw [codeCalculatedHash, toHexStr_length, hmacSha256_length]
  · exact isLowerHex_toHexStr (sha256_bytes_lt _)

/-! ## Claim C4: the canonical check string -/

/-- Modelled from the claim text of C4: the same canonicalization but with
the keys compared byte-wise, that is by their UTF-8 bytes, instead of by
UTF-16 code units. -/
def specByteWiseCheckString (ps : List Pair) : JSString :=
  dataCheckStringOf
    (isortPairs (fun p q => lexLe (utf8OfStr p.1) (utf8OfStr q.1)) (deleteParam ps hashKey))

/-- Two pairs whose keys compare differently under UTF-16 code units and
under UTF-8 bytes: U+FF61 is a single code unit 0xFF61 with UTF-8 bytes
EF BD A1, while U+10000 is the surrogate pair D800 DC00 with UTF-8 bytes
F0 90 80 80; code units put U+10000 first, bytes put U+FF61 first. -/
def cexPairsC4 : List Pair := [([0xFF61], ascii "1"), ([0xD800, 0xDC00], ascii "2")]

/-- C4 counterexample: the check string the code computes on cexPairsC4
differs from the byte-wise-sorted check string demanded by the claim,
because URLSearchParams.sort compares UTF-16 code units, not bytes. -/
theorem C4_cex : canonicalCheckString cexPairsC4 ≠ specByteWiseCheckString cexPairsC4 := by
  decide

/-- C4 as amended: the canonical check string is the pairs with the hash
field removed, stable-sorted by key in UTF-16 code-unit order (which agrees
with byte-wise order for keys without surrogate pairs), rendered as
key=value lines joined by single newlines with no trailing newline, and the
empty collection yields the empty string. -/
theorem C4_canonical_check_string (ps : List Pair) :
    canonicalCheckString ps =
      joinSep [10] ((sortPairs (deleteParam ps hashKey)).map renderPair) ∧
    List.Pairwise KLe (sortPairs (deleteParam ps hashKey)) ∧
    (sortPairs (deleteParam ps hashKey)).Perm (deleteParam ps hashKey) ∧
    (∀ k, (sortPairs (deleteParam ps hashKey)).filter (fun p => decide (p.1 = k)) =
      (deleteParam ps hashKey).filter (fun p => decide (p.1 = k))) ∧
    (deleteParam ps hashKey = [] → canonicalCheckString ps = []) := by
  refine ⟨?_, sortPairs_pairwise _, sortPairs_perm _, sortPairs_filter_key _, ?_⟩
  · rw [canonicalCheckString, dataCheckStringOf_eq_joinSep]
  · intro h
    rw [canonicalCheckString, h]
    rfl

/-- Witness for the conditional part of C4: a concrete collection whose
non-hash part is empty canonicalizes to the empty string. -/
theorem C4_canonical_check_string_w :
    canonicalCheckString [(hashKey, ascii "x")] = [] :=
  (C4_canonical_check_string [(hashKey, ascii "x")]).2.2.2.2 (by decide)

/-! ## Claim C5: order independence of canonicalization -/

/-- C5 counterexample: the same multiset of pairs, with a duplicate key,
presented in two orders, canonicalizes to two different check strings,
because the sort is stable and ties keep their input order. -/
theorem C5_cex :
    ([(ascii "a", ascii "1"), (ascii "a", ascii "2")] : List Pair).Perm
      [(ascii "a", ascii "2"), (ascii "a", ascii "1")] ∧
    canonicalCheckString [(ascii "a", ascii "1"), (ascii "a", ascii "2")] ≠
      canonicalCheckString [(ascii "a", ascii "2"), (ascii "a", ascii "1")] := by
  constructor
  · exact List.Perm.swap (ascii "a", ascii "2") (ascii "a", ascii "1") []
  · decide

/-- The strict key order used to identify sorted permutations. -/
def KLt (p q : Pair) : Prop := KLe p q ∧ p.1 ≠ q.1

instance : IsAntisymm Pair KLt where
  antisymm _ _ h1 h2 := absurd (lexLe_antisymm h1.1 h2.1) h1.2

/-- C5 as amended: canonicalizing the same multiset of pairs presented in any
input order yields byte-identical check strings whenever the keys are
pairwise distinct; with duplicate keys the stable sort preserves the input
order of ties, so differently ordered presentations can differ. -/
theorem C5_canonicalization_deterministic (l1 l2 : List Pair)
    (hperm : l1.Perm l2) (hnd : (l1.map Prod.fst).Nodup) :
    canonicalCheckString l1 = canonicalCheckString l2 := by
  have hd : (deleteParam l1 hashKey).Perm (deleteParam l2 hashKey) := by
    rw [deleteParam_eq_filter, deleteParam_eq_filter]
    exact hperm.filter _
  have hsub : (deleteParam l1 hashKey).map Prod.fst |>.Sublist (l1.map Prod.fst) := by
    rw [deleteParam_eq_filter]
    exact (List.filter_sublist l1).map Prod.fst
  have hnd1 : ((deleteParam l1 hashKey).map Prod.fst).Nodup := hnd.sublist hsub
  have hps : (sortPairs (deleteParam l1 hashKey)).Perm (sortPairs (deleteParam l2 hashKey)) :=
    (sortPairs_perm _).trans (hd.trans (sortPairs_perm _).symm)
  have hnds1 : ((sortPairs (deleteParam l1 hashKey)).map Prod.fst).Nodup :=
    (((sortPairs_perm (deleteParam l1 hashKey)).map Prod.fst).nodup_iff).mpr hnd1
  have hnds2 : ((sortPairs (deleteParam l2 hashKey)).map Prod.fst).Nodup := by
    refine (hps.map Prod.fst).nodup_iff.mp hnds1
  have hlt1 : List.Pairwise KLt (sortPairs (deleteParam l1 hashKey)) :=
    (sortPairs_pairwise _).and (List.pairwise_map.mp hnds1)
  have hlt2 : List.Pairwise KLt (sortPairs (deleteParam l2 hashKey)) :=
    (sortPairs_pairwise _).and (List.pairwise_map.mp hnds2)
  have : sortPairs (deleteParam l1 hashKey) = sortPairs (deleteParam l2 hashKey) :=
    List.eq_of_perm_of_sorted hps hlt1 hlt2
  rw [canonicalCheckString, canonicalCheckString, this]

/-- Witness for C5 as amended: two concrete presentations of the same
distinct-key pair set canonicalize identically. -/
theorem C5_canonicalization_deterministic_w :
    canonicalCheckString [(ascii "b", ascii "2"), (ascii "a", ascii "1")] =
      canonicalCheckString [(ascii "a", ascii "1"), (ascii "b", ascii "2")] :=
  C5_canonicalization_deterministic _ _
    (List.Perm.swap (ascii "a", ascii "1") (ascii "b", ascii "2") []) (by decide)

/-! ## Claim C1: the verify-reject invariant -/

/-- C1: whenever the recomputed upstream HMAC differs from the supplied hash
value, reading a missing hash pair as the empty value, the controller
answers InvalidSignature and produces no success payload. -/
theorem C1_verify_reject {env : Env} {s bt : JSString}
    (hbt : env.BOT_TOKEN = some bt)
    (hne : upstreamMac bt s ≠ (getParam (parseUrlencoded s) hashKey).getD []) :
    verifyInitData env s = .invalidSignature ∧
    ∀ out, verifyInitData env s ≠ .success out := by
  have hinv : verifyInitData env s = .invalidSignature := by
    refine verifyInitData_invalid hbt ?_
    cases hh : getParam (parseUrlencoded s) hashKey with
    | none => simp
    | some v =>
      rw [hh] at hne
      simp only [Option.getD_some] at hne
      intro hcon
      injection hcon with h4
      exact hne h4.symm
  refine ⟨hinv, fun out hcon => ?_⟩
  rw [hinv] at hcon
  exact absurd hcon (by simp)

/-- A configuration with all three values present, for the concrete runs. -/
def envS : Env := ⟨some (ascii "S"), some (ascii "C"), some (ascii "T")⟩

set_option maxRecDepth 1000000 in
set_option maxHeartbeats 4000000 in
/-- Witness for C1: a concrete credential whose supplied hash is wrong. -/
theorem C1_verify_reject_w :
    verifyInitData envS (ascii "a=1&hash=dead") = .invalidSignature ∧
    ∀ out, verifyInitData envS (ascii "a=1&hash=dead") ≠ .success out :=
  @C1_verify_reject envS (ascii "a=1&hash=dead") (ascii "S") rfl (by decide)

/-! ## Claim C6: malformed input -/

set_option maxRecDepth 1000000 in
set_option maxHeartbeats 4000000 in
/-- C6 counterexample: the input a%zz=1&b=2 carries an invalid percent
escape, the very example of undecodable wire form the spec gives. The parser
decodes it anyway, keeping the escape literally, and the controller rejects
the credential as InvalidSignature; no distinct MalformedInput rejection
exists among the observable outcomes of the code. -/
theorem C6_cex :
    parseUrlencoded (ascii "a%zz=1&b=2") = [(ascii "a%zz", ascii "1"), (ascii "b", ascii "2")] ∧
    verifyInitData envS (ascii "a%zz=1&b=2") = .invalidSignature := by
  decide

/-- C6 as amended: wire-form decoding is total, so no input string is ever
refused as undecodable; with the two secrets configured, every input string
deterministically yields either the InvalidSignature rejection or a success,
and never the thrown-exception server error. -/
theorem C6_malformed_never_crashes (bt cs s : JSString) (oci : Option JSString) :
    verifyInitData ⟨some bt, oci, some cs⟩ s ≠ .serverError ∧
    (verifyInitData ⟨some bt, oci, some cs⟩ s = .invalidSignature ∨
      ∃ out, verifyInitData ⟨some bt, oci, some cs⟩ s = .success out) := by
  by_cases hc : getParam (parseUrlencoded s) hashKey = some (upstreamMac bt s)
  · have h2 := @verifyInitData_success_eq ⟨some bt, oci, some cs⟩ s bt cs rfl rfl hc
    rw [h2]
    exact ⟨by simp, Or.inr ⟨_, rfl⟩⟩
  · have h2 := @verifyInitData_invalid ⟨some bt, oci, some cs⟩ s bt rfl hc
    rw [h2]
    exact ⟨by simp, Or.inl rfl⟩

/-! ## Claim C7: configuration handling -/

/-- The configuration of the C7 counterexample: both secrets present, the
client identifier unset. -/
def envNoCid : Env := ⟨some (ascii "S"), none, some (ascii "T")⟩

/-- A credential with one pair a=1, correctly signed under the upstream
secret S; the hash value is computed with the model itself. -/
def inC7 : JSString :=
  serializePairs [(ascii "a", ascii "1"),
    (hashKey, codeCalculatedHash (ascii "S") (canonicalCheckString [(ascii "a", ascii "1")]))]

/-- The output string of the C7 run. -/
def outC7 : JSString := reissuedOutStr none (ascii "T") inC7

set_option maxRecDepth 1000000 in
set_option maxHeartbeats 16000000 in
/-- C7 counterexample: with the client identifier absent the controller does
not return a server-side configuration error; the call succeeds and the
returned credential carries the fabricated pair client_id=undefined. -/
theorem C7_cex :
    verifyInitData envNoCid inC7 = .success outC7 ∧
    (clientIdKey, ascii "undefined") ∈ parseUrlencoded outC7 := by
  decide

/-! ## Valid Unicode scalar values and the UTF-8 round trip -/

/-- A Unicode scalar value: below the surrogate range or between it and
U+10FFFF. -/
def ValidScalar (c : Nat) : Prop := c < 0xD800 ∨ (0xDFFF < c ∧ c ≤ 0x10FFFF)

instance : DecidablePred ValidScalar := fun c => by rw [ValidScalar]; infer_instance

theorem valid_replacement : ValidScalar 0xFFFD := by rw [ValidScalar]; omega

theorem valid_of_leadKind_one {b : Nat} (h : leadKind b = 1) : ValidScalar b := by
  rw [leadKind] at h; rw [ValidScalar]; split_ifs at h <;> omega

theorem cp2_valid (b b1 : Nat) : ValidScalar (cp2 b b1) := by
  rw [ValidScalar, cp2]
  have := Nat.mod_lt b (show 0 < 32 by omega)
  have := Nat.mod_lt b1 (show 0 < 64 by omega)
  omega

theorem cp3_valid (b b1 b2 : Nat) (hb : leadKind b = 3) (hc : cont3a b b1 = true) :
    ValidScalar (cp3 b b1 b2) := by
  rw [leadKind] at hb
  rw [cont3a, decide_eq_true_iff] at hc
  rw [ValidScalar, cp3]
  have := Nat.mod_lt b2 (show 0 < 64 by omega)
  split_ifs at hb hc <;> omega

theorem cp4_valid (b b1 b2 b3 : Nat) (hb : leadKind b = 4) (hc : cont4a b b1 = true) :
    ValidScalar (cp4 b b1 b2 b3) := by
  rw [leadKind] at hb
  rw [cont4a, decide_eq_true_iff] at hc
  rw [ValidScalar, cp4]
  have := Nat.mod_lt b2 (show 0 < 64 by omega)
  have := Nat.mod_lt b3 (show 0 < 64 by omega)
  split_ifs at hb hc <;> omega

/-- Bounded-depth core of the decoder validity argument: every scalar the
WHATWG UTF-8 decoder emits is a valid Unicode scalar value. -/
theorem utf8Dec_valid_fuel :
    ∀ (n : Nat) (bs : List Nat), bs.length ≤ n → ∀ c ∈ utf8Dec bs, ValidScalar c := by
  intro n
  induction n with
  | zero =>
    intro bs hlen c hc
    obtain rfl : bs = [] := List.eq_nil_of_length_eq_zero (by omega)
    rw [utf8Dec] at hc
    exact absurd hc (List.not_mem_nil c)
  | succ n ih =>
  intro bs0 hlen
  have htail : ∀ (t : List Nat), t.length + 1 ≤ bs0.length → ∀ c ∈ utf8Dec t, ValidScalar c :=
    fun t ht => ih t (by omega)
  obtain _ | ⟨b, _ | ⟨b1, _ | ⟨b2, _ | ⟨b3, bs⟩⟩⟩⟩ := bs0
  · intro c hc
    rw [utf8Dec] at hc
    exact absurd hc (List.not_mem_nil c)
  · intro c hc
    rw [utf8Dec] at hc
    split_ifs at hc with h1 <;> simp only [List.mem_singleton] at hc <;> subst hc
    · exact valid_of_leadKind_one h1
    · exact valid_replacement
  · have ht1 : ∀ c ∈ utf8Dec [b1], ValidScalar c := htail [b1] (by simp)
    intro c hc
    rw [utf8Dec] at hc
    split_ifs at hc with h1 h2 h3 h4 h5 h6 h7 <;>
      simp only [List.mem_cons, List.mem_singleton, List.not_mem_nil, or_false] at hc
    · rcases hc with rfl | hc
      · exact valid_of_leadKind_one h1
      · exact ht1 c hc
    · subst hc; exact cp2_valid b b1
    · rcases hc with rfl | hc
      · exact valid_replacement
      · exact ht1 c hc
    · subst hc; exact valid_replacement
    · rcases hc with rfl | hc
      · exact valid_replacement
      · exact ht1 c hc
    · subst hc; exact valid_replacement
    · rcases hc with rfl | hc
      · exact valid_replacement
      · exact ht1 c hc
    · rcases hc with rfl | hc
      · exact valid_replacement
      · exact ht1 c hc
  · have ht1 : ∀ c ∈ utf8Dec [b1, b2], ValidScalar c := htail [b1, b2] (by simp)
    have ht2 : ∀ c ∈ utf8Dec [b2], ValidScalar c := htail [b2] (by simp)
    intro c hc
    rw [utf8Dec] at hc
    split_ifs at hc with h1 h2 h3 h4 h5 h6 h7 h8 h9 <;>
      simp only [List.mem_cons, List.mem_singleton, List.not_mem_nil, or_false] at hc
    · rcases hc with rfl | hc
      · exact valid_of_leadKind_one h1
      · exact ht1 c hc
    · rcases hc with rfl | hc
      · exact cp2_valid b b1
      · exact ht2 c hc
    · rcases hc with rfl | hc
      · exact valid_replacement
      · exact ht1 c hc
    · subst hc; exact cp3_valid b b1 b2 h4 h5
    · rcases hc with rfl | hc
      · exact valid_replacement
      · exact ht2 c hc
    · rcases hc with rfl | hc
      · exact valid_replacement
      · exact ht1 c hc
    · subst hc; exact valid_replacement
    · rcases hc with rfl | hc
      · exact valid_replacement
      · exact ht2 c hc
    · rcases hc with rfl | hc
      · exact valid_replacement
      · exact ht1 c hc
    · rcases hc with rfl | hc
      · exact valid_replacement
      · exact ht1 c hc
  · have ht1 : ∀ c ∈ utf8Dec (b1 :: b2 :: b3 :: bs), ValidScalar c :=
      htail _ (by simp [List.length_cons])
    have ht2 : ∀ c ∈ utf8Dec (b2 :: b3 :: bs), ValidScalar c :=
      htail _ (by simp [List.length_cons])
    have ht3 : ∀ c ∈ utf8Dec (b3 :: bs), ValidScalar c :=
      htail _ (by simp [List.length_cons])
    have ht4 : ∀ c ∈ utf8Dec bs, ValidScalar c :=
      htail _ (by simp [List.length_cons])
    intro c hc
    rw [utf8Dec] at hc
    split_ifs at hc with h1 h2 h3 h4 h5 h6 h7 h8 h9 h10 <;>
      simp only [List.mem_cons, List.mem_singleton, List.not_mem_nil, or_false] at hc
    · rcases hc with rfl | hc
      · exact valid_of_leadKind_one h1
      · exact ht1 c hc
    · rcases hc with rfl | hc
      · exact cp2_valid b b1
      · exact ht2 c hc
    · rcases hc with rfl | hc
      · exact valid_replacement
      · exact ht1 c hc
    · rcases hc with rfl | hc
      · exact cp3_valid b b1 b2 h4 h5
      · exact ht3 c hc
    · rcases hc with rfl | hc
      · exact valid_replacement
      · exact ht2 c hc
    · rcases hc with rfl | hc
      · exact valid_replacement
      · exact ht1 c hc
    · rcases hc with rfl | hc
      · exact cp4_valid b b1 b2 b3 h7 h8
      · exact ht4 c hc
    · rcases hc with rfl | hc
      · exact valid_replacement
      · exact ht3 c hc
    · rcases hc with rfl | hc
      · exact valid_replacement
      · exact ht2 c hc
    · rcases hc with rfl | hc
      · exact valid_replacement
      · exact ht1 c hc
    · rcases hc with rfl | hc
      · exact valid_replacement
      · exact ht1 c hc

/-- Every scalar value the WHATWG UTF-8 decoder emits is a valid Unicode
scalar value: the boundary checks exclude surrogates and values above
U+10FFFF, and errors emit U+FFFD. -/
theorem utf8Dec_valid (bs : List Nat) : ∀ c ∈ utf8Dec bs, ValidScalar c :=
  utf8Dec_valid_fuel bs.length bs (Nat.le_refl _)

/-- Decoding the UTF-8 encoding of one valid scalar value prepended to any
byte tail yields that scalar followed by the decoding of the tail. -/
theorem utf8Dec_encCp {c : Nat} (hc : ValidScalar c) (rest : List Nat) :
    utf8Dec (utf8EncCp c ++ rest) = c :: utf8Dec rest := by
  rw [ValidScalar] at hc
  rw [utf8EncCp]
  split_ifs with h1 h2 h3
  · have hk : leadKind c = 1 := by rw [leadKind]; split_ifs <;> omega
    obtain _ | ⟨r1, _ | ⟨r2, _ | ⟨r3, rs⟩⟩⟩ := rest <;> simp [utf8Dec, hk]
  · have hk : leadKind (192 + c / 64) = 2 := by rw [leadKind]; split_ifs <;> omega
    have hcont : contOK (128 + c % 64) = true := by
      rw [contOK, decide_eq_true_iff]; omega
    obtain _ | ⟨r1, _ | ⟨r2, rs⟩⟩ := rest <;>
      (simp [utf8Dec, hk, hcont, cp2]; omega)
  · have hk : leadKind (224 + c / 4096) = 3 := by rw [leadKind]; split_ifs <;> omega
    have hcont1 : cont3a (224 + c / 4096) (128 + c / 64 % 64) = true := by
      rw [cont3a, decide_eq_true_iff]; split_ifs <;> omega
    have hcont2 : contOK (128 + c % 64) = true := by
      rw [contOK, decide_eq_true_iff]; omega
    obtain _ | ⟨r1, rs⟩ := rest <;>
      (simp [utf8Dec, hk, hcont1, hcont2, cp3]; omega)
  · have hk : leadKind (240 + c / 262144) = 4 := by rw [leadKind]; split_ifs <;> omega
    have hcont1 : cont4a (240 + c / 262144) (128 + c / 4096 % 64) = true := by
      rw [cont4a, decide_eq_true_iff]; split_ifs <;> omega
    have hcont2 : contOK (128 + c / 64 % 64) = true := by
      rw [contOK, decide_eq_true_iff]; omega
    have hcont3 : contOK (128 + c % 64) = true := by
      rw [contOK, decide_eq_true_iff]; omega
    simp [utf8Dec, hk, hcont1, hcont2, hcont3, cp4]
    omega

/-- Decoding the concatenated UTF-8 encodings of valid scalar values gives
back the scalar values. -/
theorem utf8Dec_concat_encCp :
    ∀ (cs : List Nat), (∀ c ∈ cs, ValidScalar c) →
      utf8Dec (concatAll (cs.map utf8EncCp)) = cs := by
  intro cs
  induction cs with
  | nil => intro _; rfl
  | cons c cst ih =>
    intro h
    simp only [List.map_cons, concatAll]
    rw [utf8Dec_encCp (h c (List.mem_cons_self c cst))]
    rw [ih fun x hx => h x (List.mem_cons_of_mem c hx)]

theorem cuToScalars_cons (u : Nat) (t : List Nat) (hu : u < 0xD800 ∨ 0xDFFF < u) :
    cuToScalars (u :: t) = u :: cuToScalars t := by
  cases t with
  | nil => simp only [cuToScalars]; rw [if_pos hu]
  | cons v ts => simp only [cuToScalars]; rw [if_pos hu]

theorem cuToScalars_surr_pair (hi lo : Nat) (t : List Nat)
    (hhi : 0xD800 ≤ hi ∧ hi ≤ 0xDBFF) (hlo : 0xDC00 ≤ lo ∧ lo ≤ 0xDFFF) :
    cuToScalars (hi :: lo :: t) =
      (0x10000 + (hi - 0xD800) * 1024 + (lo - 0xDC00)) :: cuToScalars t := by
  simp only [cuToScalars]
  rw [if_neg (by omega), if_pos (by omega), if_pos (by omega)]

/-- Re-reading the UTF-16 serialization of valid scalar values gives back the
scalar values. -/
theorem cuToScalars_scalarsToCU :
    ∀ (cs : List Nat), (∀ c ∈ cs, ValidScalar c) →
      cuToScalars (scalarsToCU cs) = cs := by
  intro cs
  induction cs with
  | nil => intro _; rfl
  | cons c cst ih =>
    intro h
    have hv := h c (List.mem_cons_self c cst)
    rw [ValidScalar] at hv
    have iht := ih fun x hx => h x (List.mem_cons_of_mem c hx)
    simp only [scalarsToCU]
    by_cases hlt : c < 0x10000
    · rw [if_pos hlt, List.singleton_append, cuToScalars_cons c (scalarsToCU cst) (by omega), iht]
    · rw [if_neg hlt]
      simp only [List.cons_append, List.nil_append]
      rw [cuToScalars_surr_pair (0xD800 + (c - 0x10000) / 1024)
            (0xDC00 + (c - 0x10000) % 1024) (scalarsToCU cst) (by omega) (by omega), iht]
      have hrec : 0x10000 + (0xD800 + (c - 0x10000) / 1024 - 0xD800) * 1024 +
          (0xDC00 + (c - 0x10000) % 1024 - 0xDC00) = c := by omega
      rw [hrec]

/-- A well-formed JavaScript string: its code units read as valid scalar
values and re-serialize to exactly the same code units (no lone surrogates,
no out-of-range units). Every string the parser produces is well-formed. -/
def WfStr (s : JSString) : Prop :=
  (∀ c ∈ cuToScalars s, ValidScalar c) ∧ scalarsToCU (cuToScalars s) = s

instance (s : JSString) : Decidable (WfStr s) := by unfold WfStr; infer_instance

theorem wfStr_strOfBytes (bs : List Nat) : WfStr (strOfBytes bs) := by
  rw [WfStr, strOfBytes, cuToScalars_scalarsToCU _ (utf8Dec_valid bs)]
  exact ⟨utf8Dec_valid bs, rfl⟩

theorem cuToScalars_id_of_lt {s : JSString} (h : ∀ u ∈ s, u < 0xD800) :
    cuToScalars s = s := by
  induction s with
  | nil => rfl
  | cons u t ih =>
    rw [cuToScalars_cons u t (Or.inl (h u (List.mem_cons_self u t)))]
    rw [ih fun x hx => h x (List.mem_cons_of_mem u hx)]

theorem scalarsToCU_id_of_lt {s : JSString} (h : ∀ u ∈ s, u < 0x10000) :
    scalarsToCU s = s := by
  induction s with
  | nil => rfl
  | cons u t ih =>
    rw [scalarsToCU, if_pos (h u (List.mem_cons_self u t)), List.singleton_append]
    rw [ih fun x hx => h x (List.mem_cons_of_mem u hx)]

/-- Strings of small code units, such as ASCII strings, are well-formed. -/
theorem wfStr_of_lt {s : JSString} (h : ∀ u ∈ s, u < 0xD800) : WfStr s := by
  have h1 := cuToScalars_id_of_lt h
  rw [WfStr, h1, scalarsToCU_id_of_lt fun u hu => by have := h u hu; omega]
  exact ⟨fun c hc => Or.inl (h c hc), rfl⟩

/-- The UTF-8 bytes of a string whose scalars are valid are real bytes. -/
theorem utf8OfStr_lt {s : JSString} (h : ∀ c ∈ cuToScalars s, ValidScalar c) :
    ∀ b ∈ utf8OfStr s, b < 256 := by
  intro b hb
  rw [utf8OfStr] at hb
  rcases mem_concatAll.mp hb with ⟨l, hl, hbl⟩
  rcases List.mem_map.mp hl with ⟨c, hcs, rfl⟩
  have hv := h c hcs
  rw [ValidScalar] at hv
  rw [utf8EncCp] at hbl
  split_ifs at hbl <;>
    simp only [List.mem_cons, List.mem_singleton, List.not_mem_nil, or_false] at hbl <;>
    (try rcases hbl with rfl | hbl) <;> (try rcases hbl with rfl | hbl) <;>
    (try rcases hbl with rfl | hbl) <;> (try subst hbl) <;> omega

/-- The UTF-8 encode-decode round trip on well-formed strings. -/
theorem strOfBytes_utf8OfStr {s : JSString} (h : WfStr s) :
    strOfBytes (utf8OfStr s) = s := by
  rw [strOfBytes, utf8OfStr, utf8Dec_concat_encCp _ h.1, h.2]

/-! ## Round trip of the urlencoded serializer and parser -/

theorem hexVal_hexUpper {d : Nat} (hd : d < 16) : hexVal (hexUpper d) = d := by
  rw [hexUpper, hexVal]
  split_ifs <;> omega

theorem isHexByte_hexUpper {d : Nat} (hd : d < 16) : isHexByte (hexUpper d) = true := by
  rw [hexUpper, isHexByte]
  split_ifs <;> simp <;> omega

/-- A byte that is not a percent sign decodes to itself. -/
theorem percentDecode_cons_of_ne (b : Nat) (l : List Nat) (hb : b ≠ 37) :
    percentDecode (b :: l) = b :: percentDecode l := by
  obtain _ | ⟨a, _ | ⟨c, rest⟩⟩ := l
  · rfl
  · rfl
  · rw [percentDecode, if_neg (by simp [hb])]

/-- A percent sign followed by two hex digits decodes to the denoted byte. -/
theorem percentDecode_escape (a c : Nat) (l : List Nat)
    (ha : isHexByte a = true) (hc : isHexByte c = true) :
    percentDecode (37 :: a :: c :: l) = (hexVal a * 16 + hexVal c) :: percentDecode l := by
  rw [percentDecode, if_pos ⟨rfl, ha, hc⟩]

theorem isSafeByte_facts {b : Nat} (h : isSafeByte b = true) :
    b < 128 ∧ b ≠ 37 ∧ b ≠ 43 ∧ b ≠ 38 ∧ b ≠ 61 ∧ b ≠ 63 ∧ b ≠ 32 := by
  rw [isSafeByte] at h
  simp only [Bool.or_eq_true, decide_eq_true_eq] at h
  omega

theorem hexUpper_facts {d : Nat} (hd : d < 16) :
    hexUpper d < 128 ∧ hexUpper d ≠ 37 ∧ hexUpper d ≠ 43 ∧ hexUpper d ≠ 38 ∧
      hexUpper d ≠ 61 ∧ hexUpper d ≠ 63 := by
  rw [hexUpper]
  split_ifs <;> omega

/-- Every byte the urlencoded serializer emits for one input byte is ASCII
and is none of the separator bytes. -/
theorem encodeByte_facts {b : Nat} (hb : b < 256) :
    ∀ x ∈ encodeByte b, x < 128 ∧ x ≠ 38 ∧ x ≠ 61 ∧ x ≠ 63 := by
  intro x hx
  rw [encodeByte] at hx
  split_ifs at hx with h1 h2 <;>
    simp only [List.mem_cons, List.mem_singleton, List.not_mem_nil, or_false] at hx
  · subst hx; omega
  · subst hx
    have := isSafeByte_facts h2
    omega
  · have ha := hexUpper_facts (show b / 16 < 16 by omega)
    have hb2 := hexUpper_facts (show b % 16 < 16 by omega)
    rcases hx with rfl | rfl | rfl <;> omega

/-- Decoding undoes the serialization of one byte, whatever follows. -/
theorem percentDecode_plusToSpace_encodeByte {b : Nat} (hb : b < 256) (l : List Nat) :
    percentDecode (plusToSpace (encodeByte b) ++ l) = b :: percentDecode l := by
  rw [encodeByte]
  split_ifs with h1 h2
  · subst h1
    rw [show plusToSpace [43] = [32] from rfl, List.singleton_append]
    exact percentDecode_cons_of_ne 32 l (by omega)
  · have hf := isSafeByte_facts h2
    rw [show plusToSpace [b] = [if b = 43 then 32 else b] from rfl, if_neg hf.2.2.1,
      List.singleton_append]
    exact percentDecode_cons_of_ne b l (by omega)
  · have ha := hexUpper_facts (show b / 16 < 16 by omega)
    have hb2 := hexUpper_facts (show b % 16 < 16 by omega)
    rw [show plusToSpace [37, hexUpper (b / 16), hexUpper (b % 16)] =
          [if (37 : Nat) = 43 then 32 else 37,
           if hexUpper (b / 16) = 43 then 32 else hexUpper (b / 16),
           if hexUpper (b % 16) = 43 then 32 else hexUpper (b % 16)] from rfl]
    rw [if_neg (by omega), if_neg ha.2.2.1, if_neg hb2.2.2.1]
    rw [show ([37, hexUpper (b / 16), hexUpper (b % 16)] : List Nat) ++ l =
          37 :: hexUpper (b / 16) :: hexUpper (b % 16) :: l from rfl]
    rw [percentDecode_escape _ _ _ (isHexByte_hexUpper (by omega)) (isHexByte_hexUpper (by omega))]
    rw [hexVal_hexUpper (show b / 16 < 16 by omega), hexVal_hexUpper (show b % 16 < 16 by omega)]
    congr 1
    omega

theorem serializeComponent_cons (b : Nat) (bs : List Nat) :
    serializeComponent (b :: bs) = encodeByte b ++ serializeComponent bs := rfl

theorem plusToSpace_append (l1 l2 : List Nat) :
    plusToSpace (l1 ++ l2) = plusToSpace l1 ++ plusToSpace l2 := List.map_append _ l1 l2

/-- Decoding undoes the serialization of a whole component. -/
theorem percentDecode_plusToSpace_serializeComponent {bs : List Nat}
    (h : ∀ b ∈ bs, b < 256) :
    percentDecode (plusToSpace (serializeComponent bs)) = bs := by
  induction bs with
  | nil => rfl
  | cons b bst ih =>
    rw [serializeComponent_cons, plusToSpace_append,
      percentDecode_plusToSpace_encodeByte (h b (List.mem_cons_self b bst))]
    rw [ih fun x hx => h x (List.mem_cons_of_mem b hx)]

theorem serializeComponent_facts {bs : List Nat} (h : ∀ b ∈ bs, b < 256) :
    ∀ x ∈ serializeComponent bs, x < 128 ∧ x ≠ 38 ∧ x ≠ 61 ∧ x ≠ 63 := by
  intro x hx
  rw [serializeComponent] at hx
  rcases mem_concatAll.mp hx with ⟨l, hl, hxl⟩
  rcases List.mem_map.mp hl with ⟨b, hbs, rfl⟩
  exact encodeByte_facts (h b hbs) x hxl

/-! ## Splitting lemmas -/

theorem splitOnByte_no_sep {c : Nat} : ∀ {l : List Nat}, c ∉ l → splitOnByte c l = [l] := by
  intro l
  induction l with
  | nil => intro _; rfl
  | cons b bs ih =>
    intro h
    rw [splitOnByte]
    rw [ih fun hmem => h (List.mem_cons_of_mem b hmem)]
    rw [if_neg (by intro he; subst he; exact h (List.mem_cons_self b bs))]

theorem splitOnByte_append {c : Nat} :
    ∀ {l : List Nat}, c ∉ l → ∀ (t : List Nat),
      splitOnByte c (l ++ c :: t) = l :: splitOnByte c t := by
  intro l
  induction l with
  | nil =>
    intro _ t
    rw [List.nil_append, splitOnByte, if_pos rfl]
  | cons b bs ih =>
    intro h t
    rw [List.cons_append, splitOnByte,
      ih (fun hmem => h (List.mem_cons_of_mem b hmem)) t]
    rw [if_neg (by intro he; subst he; exact h (List.mem_cons_self b bs))]

theorem splitOnByte_joinSep {c : Nat} :
    ∀ (parts : List (List Nat)), parts ≠ [] → (∀ part ∈ parts, c ∉ part) →
      splitOnByte c (joinSep [c] parts) = parts := by
  intro parts
  induction parts with
  | nil => intro h _; exact absurd rfl h
  | cons x xs ih =>
    intro _ h
    cases xs with
    | nil => exact splitOnByte_no_sep (h x (List.mem_cons_self x []))
    | cons y ys =>
      rw [joinSep]
      rw [show x ++ [c] ++ joinSep [c] (y :: ys) = x ++ c :: joinSep [c] (y :: ys) by
        simp [List.append_assoc]]
      rw [splitOnByte_append (h x (List.mem_cons_self x (y :: ys)))]
      rw [ih (by simp) fun p hp => h p (List.mem_cons_of_mem x hp)]

theorem splitNameValue_append :
    ∀ {n : List Nat}, 61 ∉ n → ∀ (v : List Nat),
      splitNameValue (n ++ 61 :: v) = (n, v) := by
  intro n
  induction n with
  | nil =>
    intro _ v
    rw [List.nil_append, splitNameValue, if_pos rfl]
  | cons b bs ih =>
    intro h v
    rw [List.cons_append, splitNameValue,
      if_neg (by intro he; subst he; exact h (List.mem_cons_self 61 bs))]
    rw [ih (fun hmem => h (List.mem_cons_of_mem b hmem)) v]

theorem mem_joinSep {x : Nat} {sep : List Nat} :
    ∀ {parts : List (List Nat)}, x ∈ joinSep sep parts →
      x ∈ sep ∨ ∃ p ∈ parts, x ∈ p := by
  intro parts
  induction parts with
  | nil => intro h; exact absurd h (List.not_mem_nil x)
  | cons a as ih =>
    intro h
    cases as with
    | nil => exact Or.inr ⟨a, List.mem_cons_self a [], h⟩
    | cons b bs =>
      rw [joinSep] at h
      rcases List.mem_append.mp h with h2 | h2
      · rcases List.mem_append.mp h2 with h3 | h3
        · exact Or.inr ⟨a, List.mem_cons_self a (b :: bs), h3⟩
        · exact Or.inl h3
      · rcases ih h2 with h3 | ⟨p, hp, hxp⟩
        · exact Or.inl h3
        · exact Or.inr ⟨p, List.mem_cons_of_mem a hp, hxp⟩

/-! ## The parse-serialize round trip on pair lists -/

theorem utf8OfStr_id_of_ascii {s : JSString} (h : ∀ u ∈ s, u < 128) :
    utf8OfStr s = s := by
  rw [utf8OfStr, cuToScalars_id_of_lt fun u hu => by have := h u hu; omega]
  induction s with
  | nil => rfl
  | cons u t ih =>
    simp only [List.map_cons, concatAll]
    rw [utf8EncCp, if_pos (by have := h u (List.mem_cons_self u t); omega)]
    rw [List.singleton_append, ih fun x hx => h x (List.mem_cons_of_mem u hx)]

theorem encodedPair_ne_nil (p : Pair) : encodedPair p ≠ [] := by
  rw [encodedPair]
  intro h
  have := congrArg List.length h
  simp [List.length_append] at this

theorem encodedPair_facts {p : Pair} (h1 : WfStr p.1) (h2 : WfStr p.2) :
    ∀ x ∈ encodedPair p, x < 128 ∧ x ≠ 38 ∧ x ≠ 63 := by
  intro x hx
  rw [encodedPair] at hx
  rcases List.mem_append.mp hx with hx2 | hx2
  · rcases List.mem_append.mp hx2 with hx3 | hx3
    · have := serializeComponent_facts (utf8OfStr_lt h1.1) x hx3
      omega
    · simp only [List.mem_singleton] at hx3
      omega
  · have := serializeComponent_facts (utf8OfStr_lt h2.1) x hx2
    omega

/-- Parsing one serialized pair inside the filterMap of the parser yields
exactly that pair back. -/
theorem parse_encodedPair {p : Pair} (h1 : WfStr p.1) (h2 : WfStr p.2) :
    (if (encodedPair p).isEmpty then none
     else
       let nv := splitNameValue (encodedPair p)
       some (decodeComponent nv.1, decodeComponent nv.2)) = some p := by
  rw [if_neg (by simp [List.isEmpty_iff, encodedPair_ne_nil p])]
  have hsplit : splitNameValue (encodedPair p) =
      (serializeComponent (utf8OfStr p.1), serializeComponent (utf8OfStr p.2)) := by
    rw [encodedPair,
      show serializeComponent (utf8OfStr p.1) ++ [61] ++ serializeComponent (utf8OfStr p.2) =
        serializeComponent (utf8OfStr p.1) ++ 61 :: serializeComponent (utf8OfStr p.2) by
        simp [List.append_assoc]]
    exact splitNameValue_append
      (fun hmem => absurd rfl (serializeComponent_facts (utf8OfStr_lt h1.1) 61 hmem).2.2.1) _
  rw [hsplit]
  simp only []
  rw [show decodeComponent (serializeComponent (utf8OfStr p.1)) =
        strOfBytes (percentDecode (plusToSpace (serializeComponent (utf8OfStr p.1)))) from rfl]
  rw [show decodeComponent (serializeComponent (utf8OfStr p.2)) =
        strOfBytes (percentDecode (plusToSpace (serializeComponent (utf8OfStr p.2)))) from rfl]
  rw [percentDecode_plusToSpace_serializeComponent (utf8OfStr_lt h1.1),
    percentDecode_plusToSpace_serializeComponent (utf8OfStr_lt h2.1)]
  rw [strOfBytes_utf8OfStr h1, strOfBytes_utf8OfStr h2]

/-- One step of the parser filterMap over serialized pairs. -/
theorem filterMap_encodedPair :
    ∀ (ps : List Pair), (∀ p ∈ ps, WfStr p.1 ∧ WfStr p.2) →
      (ps.map encodedPair).filterMap (fun seq =>
        if seq.isEmpty then none
        else
          let nv := splitNameValue seq
          some (decodeComponent nv.1, decodeComponent nv.2)) = ps := by
  intro ps
  induction ps with
  | nil => intro _; rfl
  | cons p ps2 ih =>
    intro h
    rw [List.map_cons, List.filterMap_cons]
    have hpe : (if (encodedPair p).isEmpty then none
        else
          let nv := splitNameValue (encodedPair p)
          some (decodeComponent nv.1, decodeComponent nv.2)) = some p :=
      parse_encodedPair (h p (List.mem_cons_self p ps2)).1 (h p (List.mem_cons_self p ps2)).2
    rw [hpe]
    show p :: (ps2.map encodedPair).filterMap _ = p :: ps2
    exact congrArg _ (ih fun r hr => h r (List.mem_cons_of_mem p hr))

theorem stripQM_id {bs : List Nat} (h : ∀ x ∈ bs, x ≠ 63) : stripQM bs = bs := by
  cases bs with
  | nil => rfl
  | cons b rest =>
    rw [stripQM]
    rw [if_neg (h b (List.mem_cons_self b rest))]

/-- Parsing the serialization of a list of well-formed pairs yields the list
back: the encode-decode round trip of URLSearchParams. -/
theorem parseUrlencoded_serializePairs {ps : List Pair}
    (h : ∀ p ∈ ps, WfStr p.1 ∧ WfStr p.2) :
    parseUrlencoded (serializePairs ps) = ps := by
  cases ps with
  | nil => rfl
  | cons p ps2 =>
    have hascii : ∀ x ∈ serializePairs (p :: ps2), x < 128 ∧ x ≠ 63 := by
      intro x hx
      rw [serializePairs] at hx
      rcases mem_joinSep hx with hx2 | ⟨part, hpart, hxp⟩
      · simp only [List.mem_singleton] at hx2
        omega
      · rcases List.mem_map.mp hpart with ⟨q, hq, rfl⟩
        have := encodedPair_facts (h q hq).1 (h q hq).2 x hxp
        omega
    rw [parseUrlencoded, utf8OfStr_id_of_ascii fun u hu => (hascii u hu).1,
      stripQM_id fun x hx => (hascii x hx).2]
    rw [show serializePairs (p :: ps2) = joinSep [38] ((p :: ps2).map encodedPair) from rfl]
    rw [splitOnByte_joinSep _ (by simp) ?hfree]
    case hfree =>
      intro part hpart hmem
      rcases List.mem_map.mp hpart with ⟨q, hq, rfl⟩
      exact absurd rfl (encodedPair_facts (h q hq).1 (h q hq).2 38 hmem).2.1
    exact filterMap_encodedPair _ h

/-! ## Well-formedness of parsed and produced pairs -/

/-- Every pair the parser produces has well-formed components, because both
run through the UTF-8 decoder with replacement. -/
theorem parseUrlencoded_wf (s : JSString) :
    ∀ p ∈ parseUrlencoded s, WfStr p.1 ∧ WfStr p.2 := by
  intro p hp
  rw [parseUrlencoded] at hp
  rcases List.mem_filterMap.mp hp with ⟨seq, hseq, hmatch⟩
  by_cases he : seq.isEmpty
  · rw [if_pos he] at hmatch
    exact absurd hmatch (by simp)
  · rw [if_neg he] at hmatch
    have hm : (decodeComponent (splitNameValue seq).1,
        decodeComponent (splitNameValue seq).2) = p := Option.some.inj hmatch
    subst hm
    exact ⟨wfStr_strOfBytes _, wfStr_strOfBytes _⟩

theorem hmacSha256_bytes_lt (k m : List Nat) : ∀ b ∈ hmacSha256 k m, b < 256 := by
  rw [hmacSha256]
  exact sha256_bytes_lt _

/-- Hex digests of byte lists are well-formed strings (all ASCII). -/
theorem wfStr_toHexStr {bs : List Nat} (h : ∀ b ∈ bs, b < 256) : WfStr (toHexStr bs) := by
  apply wfStr_of_lt
  intro u hu
  rw [toHexStr] at hu
  rcases mem_concatAll.mp hu with ⟨l, hl, hul⟩
  rcases List.mem_map.mp hl with ⟨b, hb, rfl⟩
  have hblt := h b hb
  rcases List.mem_cons.mp hul with rfl | hul2
  · rcases hexLower_mem (b / 16) (by omega) with h1 | h1 <;> omega
  · rcases List.mem_cons.mp hul2 with rfl | hul3
    · rcases hexLower_mem (b % 16) (by omega) with h1 | h1 <;> omega
    · exact absurd hul3 (List.not_mem_nil u)

theorem wfStr_centralHash (cs dcs : JSString) : WfStr (codeCentralHash cs dcs) := by
  rw [codeCentralHash]
  exact wfStr_toHexStr (hmacSha256_bytes_lt _ _)

theorem mem_baseParams {s : JSString} {p : Pair} (hp : p ∈ baseParams s) :
    p ∈ parseUrlencoded s ∧ p.1 ≠ hashKey := by
  rw [baseParams] at hp
  have hm : p ∈ deleteParam (parseUrlencoded s) hashKey := (sortPairs_perm _).mem_iff.mp hp
  refine ⟨?_, deleteParam_not_mem_key _ _ p hm⟩
  rw [deleteParam_eq_filter] at hm
  exact List.mem_of_mem_filter hm

theorem reissuedParams_wf {oci : Option JSString} {s : JSString}
    (hc : WfStr (clientIdOf oci)) :
    ∀ p ∈ reissuedParams oci s, WfStr p.1 ∧ WfStr p.2 := by
  intro p hp
  rw [reissuedParams] at hp
  have hm := (sortPairs_perm _).mem_iff.mp hp
  rcases List.mem_append.mp hm with hm1 | hm2
  · exact parseUrlencoded_wf s p (mem_baseParams hm1).1
  · rw [List.mem_singleton] at hm2
    subst hm2
    exact ⟨(by decide : WfStr clientIdKey), hc⟩

theorem reissuedParams_no_hash (oci : Option JSString) (s : JSString) :
    ∀ p ∈ reissuedParams oci s, p.1 ≠ hashKey := by
  intro p hp
  rw [reissuedParams] at hp
  have hm := (sortPairs_perm _).mem_iff.mp hp
  rcases List.mem_append.mp hm with hm1 | hm2
  · exact (mem_baseParams hm1).2
  · rw [List.mem_singleton] at hm2
    subst hm2
    show clientIdKey ≠ hashKey
    decide

theorem clientId_mem_reissuedParams (oci : Option JSString) (s : JSString) :
    (clientIdKey, clientIdOf oci) ∈ reissuedParams oci s := by
  rw [reissuedParams]
  exact (sortPairs_perm _).mem_iff.mpr
    (List.mem_append.mpr (Or.inr (List.mem_singleton.mpr rfl)))

/-- Parsing the wire string a successful call returns yields the augmented,
sorted pair collection followed by the new hash pair. -/
theorem parse_reissuedOutStr {oci : Option JSString} {cs s : JSString}
    (hc : WfStr (clientIdOf oci)) :
    parseUrlencoded (reissuedOutStr oci cs s) =
      reissuedParams oci s ++
        [(hashKey, codeCentralHash cs (dataCheckStringOf (reissuedParams oci s)))] := by
  rw [reissuedOutStr]
  apply parseUrlencoded_serializePairs
  intro p hp
  rcases List.mem_append.mp hp with h1 | h2
  · exact reissuedParams_wf hc p h1
  · rw [List.mem_singleton] at h2
    subst h2
    exact ⟨(by decide : WfStr hashKey), wfStr_centralHash _ _⟩

theorem getParam_reissuedOut {oci : Option JSString} {cs s : JSString}
    (hc : WfStr (clientIdOf oci)) :
    getParam (parseUrlencoded (reissuedOutStr oci cs s)) hashKey =
      some (codeCentralHash cs (dataCheckStringOf (reissuedParams oci s))) := by
  rw [parse_reissuedOutStr hc]
  exact getParam_last (reissuedParams_no_hash oci s)

theorem deleteParam_reissuedOut {oci : Option JSString} {cs s : JSString}
    (hc : WfStr (clientIdOf oci)) :
    deleteParam (parseUrlencoded (reissuedOutStr oci cs s)) hashKey =
      reissuedParams oci s := by
  rw [parse_reissuedOutStr hc, deleteParam_append,
    deleteParam_eq_self (reissuedParams_no_hash oci s)]
  rw [deleteParam, if_pos rfl]
  rw [deleteParam, List.append_nil]

theorem sortPairs_reissuedParams (oci : Option JSString) (s : JSString) :
    sortPairs (reissuedParams oci s) = reissuedParams oci s := by
  rw [reissuedParams]
  exact sortPairs_idem _

theorem pairwise_reissuedParams (oci : Option JSString) (s : JSString) :
    List.Pairwise KLe (reissuedParams oci s) := by
  rw [reissuedParams]
  exact sortPairs_pairwise _

/-! ## Length of the check string -/

theorem dataCheckStringOf_length (ps : List Pair) :
    (dataCheckStringOf ps).length =
      (ps.map fun p => p.1.length + p.2.length + 2).sum - 1 := by
  rw [dataCheckStringOf, foldl_check, List.nil_append, List.length_dropLast]
  congr 1
  induction ps with
  | nil => rfl
  | cons p ps ih =>
    simp only [List.map_cons, concatAll, List.length_append, List.sum_cons, renderPair,
      List.length_cons, List.length_nil] at ih ⊢
    omega

theorem sum_map_filter_le (q : Pair → Bool) (w : Pair → Nat) :
    ∀ ps : List Pair, ((ps.filter q).map w).sum ≤ (ps.map w).sum := by
  intro ps
  induction ps with
  | nil => exact Nat.le_refl 0
  | cons x xs ih =>
    rw [List.filter_cons]
    by_cases hq : q x
    · rw [if_pos hq]
      simp only [List.map_cons, List.sum_cons]
      omega
    · rw [if_neg hq]
      simp only [List.map_cons, List.sum_cons]
      omega

theorem sum_weights_filter_lt (q : Pair → Bool) :
    ∀ ps : List Pair, (∃ p ∈ ps, ¬ q p = true) →
      ((ps.filter q).map fun p => p.1.length + p.2.length + 2).sum + 2 ≤
        (ps.map fun p => p.1.length + p.2.length + 2).sum := by
  intro ps
  induction ps with
  | nil =>
    rintro ⟨p, hp, _⟩
    exact absurd hp (List.not_mem_nil p)
  | cons x xs ih =>
    rintro ⟨p, hp, hq⟩
    rcases List.mem_cons.mp hp with rfl | hp2
    · rw [List.filter_cons, if_neg hq]
      have := sum_map_filter_le q (fun p => p.1.length + p.2.length + 2) xs
      simp only [List.map_cons, List.sum_cons]
      omega
    · rw [List.filter_cons]
      have hx := ih ⟨p, hp2, hq⟩
      by_cases hqx : q x
      · rw [if_pos hqx]
        simp only [List.map_cons, List.sum_cons]
        omega
      · rw [if_neg hqx]
        simp only [List.map_cons, List.sum_cons]
        omega

/-- Deleting a key that occurs strictly shortens the check string. -/
theorem dataCheckStringOf_delete_lt {ps : List Pair} {k : JSString}
    (hmem : ∃ p ∈ ps, p.1 = k) :
    (dataCheckStringOf (deleteParam ps k)).length < (dataCheckStringOf ps).length := by
  rw [dataCheckStringOf_length, dataCheckStringOf_length, deleteParam_eq_filter]
  rcases hmem with ⟨p, hp, hpk⟩
  have hlt := sum_weights_filter_lt (fun p => decide (p.1 ≠ k)) ps
    ⟨p, hp, by simp [hpk]⟩
  have hw : 2 ≤ (ps.map fun p => p.1.length + p.2.length + 2).sum := by
    calc 2 ≤ p.1.length + p.2.length + 2 := by omega
    _ ≤ (ps.map fun p => p.1.length + p.2.length + 2).sum := by
      exact List.single_le_sum (fun x _ => Nat.zero_le x) _ (List.mem_map_of_mem _ hp)
  omega

/-! ## Further canonicalization helpers -/

theorem pairwise_deleteParam {ps : List Pair} (h : List.Pairwise KLe ps) (k : JSString) :
    List.Pairwise KLe (deleteParam ps k) := by
  rw [deleteParam_eq_filter]
  exact h.sublist (List.filter_sublist ps)

theorem canonicalCheckString_append_hash (ps : List Pair) (v : JSString)
    (hnh : ∀ p ∈ ps, p.1 ≠ hashKey) (hsorted : List.Pairwise KLe ps) :
    canonicalCheckString (ps ++ [(hashKey, v)]) = dataCheckStringOf ps := by
  rw [canonicalCheckString, deleteParam_append, deleteParam_eq_self hnh]
  rw [deleteParam, if_pos rfl, deleteParam, List.append_nil, sortPairs_eq_self hsorted]

theorem canonical_parse_reissuedOut {oci : Option JSString} {cs s : JSString}
    (hc : WfStr (clientIdOf oci)) :
    canonicalCheckString (parseUrlencoded (reissuedOutStr oci cs s)) =
      dataCheckStringOf (reissuedParams oci s) := by
  rw [canonicalCheckString, deleteParam_reissuedOut hc, sortPairs_reissuedParams]

/-! ## Claim C2: the verify-accept and re-sign round trip -/

/-- C2: a credential whose supplied hash equals the recomputed upstream MAC
reissues successfully, and the returned credential round-trips: parsing it,
removing its hash pair, canonicalizing the remaining pairs, and recomputing
the signature over that canonical string with the key derived from the
downstream secret yields exactly the hash carried by the output. -/
theorem C2_round_trip {env : Env} {s bt cs : JSString}
    (hbt : env.BOT_TOKEN = some bt) (hcs : env.CLIENT_SECRET = some cs)
    (hcid : WfStr (clientIdOf env.CLIENT_ID))
    (hsig : getParam (parseUrlencoded s) hashKey = some (upstreamMac bt s)) :
    ∃ out newHash, verifyInitData env s = .success out ∧
      getParam (parseUrlencoded out) hashKey = some newHash ∧
      sign_spec (dataCheckStringOf (sortPairs (deleteParam (parseUrlencoded out) hashKey)))
        (derive_key (utf8OfStr cs)) = newHash := by
  refine ⟨reissuedOutStr env.CLIENT_ID cs s,
    codeCentralHash cs (dataCheckStringOf (reissuedParams env.CLIENT_ID s)),
    verifyInitData_success_eq hbt hcs hsig, getParam_reissuedOut hcid, ?_⟩
  rw [deleteParam_reissuedOut hcid, sortPairs_reissuedParams]
  rfl

/-- A one-pair credential correctly signed under the upstream secret S. -/
def inC2 : JSString :=
  serializePairs [(ascii "b", ascii "2"),
    (hashKey, codeCalculatedHash (ascii "S") (canonicalCheckString [(ascii "b", ascii "2")]))]

set_option maxRecDepth 1000000 in
set_option maxHeartbeats 16000000 in
/-- Witness for C2 at a concrete correctly signed credential. -/
theorem C2_round_trip_w :
    ∃ out newHash, verifyInitData envS inC2 = .success out ∧
      getParam (parseUrlencoded out) hashKey = some newHash ∧
      sign_spec (dataCheckStringOf (sortPairs (deleteParam (parseUrlencoded out) hashKey)))
        (derive_key (utf8OfStr (ascii "T"))) = newHash :=
  @C2_round_trip envS inC2 (ascii "S") (ascii "T") rfl rfl (by decide) (by decide)

/-! ## Claim C7, amended part -/

/-- C7 as amended: an unset upstream secret yields the generic thrown-error
server response, an unset downstream secret likewise on any verified
credential, but an unset client identifier is not rejected: the call
succeeds and the output carries the fabricated pair client_id=undefined,
the JavaScript coercion of undefined. -/
theorem C7_config_handling {s : JSString} :
    (∀ oci ocs, verifyInitData ⟨none, oci, ocs⟩ s = .serverError) ∧
    (∀ bt oci, getParam (parseUrlencoded s) hashKey = some (upstreamMac bt s) →
      verifyInitData ⟨some bt, oci, none⟩ s = .serverError) ∧
    (∀ bt cs, getParam (parseUrlencoded s) hashKey = some (upstreamMac bt s) →
      verifyInitData ⟨some bt, none, some cs⟩ s = .success (reissuedOutStr none cs s) ∧
      (clientIdKey, ascii "undefined") ∈ parseUrlencoded (reissuedOutStr none cs s)) := by
  refine ⟨fun oci ocs => verifyInitData_bt_none rfl,
    fun bt oci h => verifyInitData_cs_none rfl rfl h,
    fun bt cs h => ⟨verifyInitData_success_eq rfl rfl h, ?_⟩⟩
  rw [@parse_reissuedOutStr none cs s (by decide)]
  exact List.mem_append.mpr (Or.inl (clientId_mem_reissuedParams none s))

set_option maxRecDepth 1000000 in
set_option maxHeartbeats 16000000 in
/-- Witness for the amended C7 at a concrete verified credential. -/
theorem C7_config_handling_w :
    verifyInitData ⟨some (ascii "S"), none, some (ascii "T")⟩ inC7 =
      .success (reissuedOutStr none (ascii "T") inC7) ∧
    (clientIdKey, ascii "undefined") ∈ parseUrlencoded (reissuedOutStr none (ascii "T") inC7) :=
  (C7_config_handling (s := inC7)).2.2 (ascii "S") (ascii "T") (by decide)

/-! ## Claim C8: client-id binding -/

/-- C8: every successful reissue returns a credential containing the
client_id pair with the configured identifier; its new hash verifies against
the canonical string of the output, removing the client_id pair changes that
canonical string, and any modification with a different canonical string
makes downstream verification fail unless it exhibits an outright collision
of the keyed hash. -/
theorem C8_client_id_binding {env : Env} {s out cs : JSString}
    (hcs : env.CLIENT_SECRET = some cs)
    (hcid : WfStr (clientIdOf env.CLIENT_ID))
    (hsucc : verifyInitData env s = .success out) :
    (clientIdKey, clientIdOf env.CLIENT_ID) ∈ parseUrlencoded out ∧
    ∃ newHash, getParam (parseUrlencoded out) hashKey = some newHash ∧
      codeCentralHash cs (canonicalCheckString (parseUrlencoded out)) = newHash ∧
      canonicalCheckString (deleteParam (parseUrlencoded out) clientIdKey) ≠
        canonicalCheckString (parseUrlencoded out) ∧
      ∀ ps2 : List Pair,
        canonicalCheckString ps2 ≠ canonicalCheckString (parseUrlencoded out) →
        codeCentralHash cs (canonicalCheckString ps2) ≠ newHash ∨
        ∃ m1 m2, m1 ≠ m2 ∧ codeCentralHash cs m1 = codeCentralHash cs m2 := by
  rcases verifyInitData_success_inv hsucc with ⟨bt, cs2, hbt, hcs2, hsig, hout⟩
  rw [hcs] at hcs2
  have hcs3 : cs = cs2 := Option.some.inj hcs2
  subst hcs3
  subst hout
  have hcanon := @canonical_parse_reissuedOut env.CLIENT_ID cs s hcid
  have hdelcid : deleteParam (parseUrlencoded (reissuedOutStr env.CLIENT_ID cs s)) clientIdKey =
      deleteParam (reissuedParams env.CLIENT_ID s) clientIdKey ++
        [(hashKey, codeCentralHash cs (dataCheckStringOf (reissuedParams env.CLIENT_ID s)))] := by
    rw [parse_reissuedOutStr hcid, deleteParam_append]
    congr 1
  have hcanon2 : canonicalCheckString
      (deleteParam (parseUrlencoded (reissuedOutStr env.CLIENT_ID cs s)) clientIdKey) =
      dataCheckStringOf (deleteParam (reissuedParams env.CLIENT_ID s) clientIdKey) := by
    rw [hdelcid]
    refine canonicalCheckString_append_hash _ _ ?_
      (pairwise_deleteParam (pairwise_reissuedParams _ _) _)
    intro p hp
    rw [deleteParam_eq_filter] at hp
    exact reissuedParams_no_hash _ _ p (List.mem_of_mem_filter hp)
  have hlen : (dataCheckStringOf (deleteParam (reissuedParams env.CLIENT_ID s) clientIdKey)).length <
      (dataCheckStringOf (reissuedParams env.CLIENT_ID s)).length :=
    dataCheckStringOf_delete_lt ⟨(clientIdKey, clientIdOf env.CLIENT_ID),
      clientId_mem_reissuedParams _ _, rfl⟩
  refine ⟨?_, codeCentralHash cs (dataCheckStringOf (reissuedParams env.CLIENT_ID s)),
    getParam_reissuedOut hcid, by rw [hcanon], ?_, ?_⟩
  · rw [parse_reissuedOutStr hcid]
    exact List.mem_append.mpr (Or.inl (clientId_mem_reissuedParams _ _))
  · rw [hcanon2, hcanon]
    intro heq
    rw [heq] at hlen
    exact Nat.lt_irrefl _ hlen
  · intro ps2 hne2
    by_cases he : codeCentralHash cs (canonicalCheckString ps2) =
        codeCentralHash cs (dataCheckStringOf (reissuedParams env.CLIENT_ID s))
    · refine Or.inr ⟨canonicalCheckString ps2,
        canonicalCheckString (parseUrlencoded (reissuedOutStr env.CLIENT_ID cs s)), hne2, ?_⟩
      rw [hcanon]
      exact he
    · exact Or.inl he

set_option maxRecDepth 1000000 in
set_option maxHeartbeats 16000000 in
/-- Witness for C8 at a concrete successful reissue. -/
theorem C8_client_id_binding_w :
    (clientIdKey, ascii "undefined") ∈ parseUrlencoded outC7 ∧
    ∃ newHash, getParam (parseUrlencoded outC7) hashKey = some newHash ∧
      codeCentralHash (ascii "T") (canonicalCheckString (parseUrlencoded outC7)) = newHash ∧
      canonicalCheckString (deleteParam (parseUrlencoded outC7) clientIdKey) ≠
        canonicalCheckString (parseUrlencoded outC7) ∧
      ∀ ps2 : List Pair,
        canonicalCheckString ps2 ≠ canonicalCheckString (parseUrlencoded outC7) →
        codeCentralHash (ascii "T") (canonicalCheckString ps2) ≠ newHash ∨
        ∃ m1 m2, m1 ≠ m2 ∧ codeCentralHash (ascii "T") m1 = codeCentralHash (ascii "T") m2 :=
  @C8_client_id_binding envNoCid inC7 outC7 (ascii "T") rfl (by decide)
    (verifyInitData_success_eq rfl rfl (by decide))

/-! ## Claim C9: the pair multiset of the output -/

/-- A valid credential carrying a second, junk hash pair after the correctly
signed one. -/
def inC9 : JSString :=
  serializePairs [(ascii "a", ascii "1"),
    (hashKey, codeCalculatedHash (ascii "S") (canonicalCheckString [(ascii "a", ascii "1")])),
    (hashKey, ascii "junk")]

/-- The output of the C9 run. -/
def outC9 : JSString := reissuedOutStr (some (ascii "C")) (ascii "T") inC9

set_option maxRecDepth 1000000 in
set_option maxHeartbeats 16000000 in
/-- C9 counterexample: the input carries two hash pairs and reissue succeeds,
but the output carries exactly one: the claimed multiset, input pairs minus
the one original hash pair plus a client_id pair and a new hash pair, would
have to carry two, so the junk hash pair is dropped rather than preserved. -/
theorem C9_cex :
    verifyInitData envS inC9 = .success outC9 ∧
    ((parseUrlencoded inC9).filter fun p => decide (p.1 = hashKey)).length = 2 ∧
    ((parseUrlencoded outC9).filter fun p => decide (p.1 = hashKey)).length = 1 := by
  decide

/-- C9 as amended: the pair multiset of a successful output equals the input
pairs minus every hash pair, plus one client_id pair and one new hash
pair. -/
theorem C9_frame {env : Env} {s out : JSString}
    (hcid : WfStr (clientIdOf env.CLIENT_ID))
    (hsucc : verifyInitData env s = .success out) :
    ∃ newHash, (parseUrlencoded out).Perm
      (deleteParam (parseUrlencoded s) hashKey ++
        [(clientIdKey, clientIdOf env.CLIENT_ID), (hashKey, newHash)]) := by
  rcases verifyInitData_success_inv hsucc with ⟨bt, cs, hbt, hcs, hsig, hout⟩
  subst hout
  refine ⟨codeCentralHash cs (dataCheckStringOf (reissuedParams env.CLIENT_ID s)), ?_⟩
  rw [parse_reissuedOutStr hcid]
  have h1 : (reissuedParams env.CLIENT_ID s).Perm
      (deleteParam (parseUrlencoded s) hashKey ++
        [(clientIdKey, clientIdOf env.CLIENT_ID)]) := by
    rw [reissuedParams, baseParams]
    exact (sortPairs_perm _).trans (List.Perm.append_right _ (sortPairs_perm _))
  refine (List.Perm.append_right _ h1).trans ?_
  rw [List.append_assoc]
  exact List.Perm.refl _

set_option maxRecDepth 1000000 in
set_option maxHeartbeats 16000000 in
/-- Witness for the amended C9 at the concrete C9 run. -/
theorem C9_frame_w :
    ∃ newHash, (parseUrlencoded outC9).Perm
      (deleteParam (parseUrlencoded inC9) hashKey ++
        [(clientIdKey, ascii "C"), (hashKey, newHash)]) :=
  @C9_frame envS inC9 outC9 (by decide) (verifyInitData_success_eq rfl rfl (by decide))

/-! ## Claim C10: ordering of the output pairs -/

/-- A valid two-pair credential whose keys are U+FF61 and U+10000: the first
is the single code unit FF61 with UTF-8 bytes EF BD A1, the second the
surrogate pair D800 DC00 with UTF-8 bytes F0 90 80 80, so code units and
bytes order them oppositely. -/
def inC10 : JSString :=
  serializePairs [([0xFF61], ascii "1"), ([0xD800, 0xDC00], ascii "2"),
    (hashKey, codeCalculatedHash (ascii "S")
      (canonicalCheckString [([0xFF61], ascii "1"), ([0xD800, 0xDC00], ascii "2")]))]

/-- The output of the C10 run. -/
def outC10 : JSString := reissuedOutStr (some (ascii "C")) (ascii "T") inC10

set_option maxRecDepth 1000000 in
set_option maxHeartbeats 16000000 in
/-- C10 counterexample: the reissue succeeds, and the non-hash pairs of the
output are not in ascending byte-wise key order, because the sort compares
UTF-16 code units and puts the U+10000 key before the U+FF61 key. -/
theorem C10_cex :
    verifyInitData envS inC10 = .success outC10 ∧
    ¬ List.Pairwise (fun p q : Pair => lexLe (utf8OfStr p.1) (utf8OfStr q.1) = true)
      (deleteParam (parseUrlencoded outC10) hashKey) := by
  decide

/-- C10 as amended: every successful output parses as a block of non-hash
pairs in ascending UTF-16 code-unit key order — not byte-wise order — that
is key-by-key stable with respect to the hash-stripped input pairs followed
by the appended client_id pair, and the new hash pair is the final pair. -/
theorem C10_output_order {env : Env} {s out : JSString}
    (hcid : WfStr (clientIdOf env.CLIENT_ID))
    (hsucc : verifyInitData env s = .success out) :
    ∃ ps newHash, parseUrlencoded out = ps ++ [(hashKey, newHash)] ∧
      List.Pairwise KLe ps ∧
      (∀ p ∈ ps, p.1 ≠ hashKey) ∧
      ∀ k, ps.filter (fun p => decide (p.1 = k)) =
        (deleteParam (parseUrlencoded s) hashKey ++
          [(clientIdKey, clientIdOf env.CLIENT_ID)]).filter fun p => decide (p.1 = k) := by
  rcases verifyInitData_success_inv hsucc with ⟨bt, cs, hbt, hcs, hsig, hout⟩
  subst hout
  refine ⟨reissuedParams env.CLIENT_ID s, _, parse_reissuedOutStr hcid,
    pairwise_reissuedParams _ _, reissuedParams_no_hash _ _, ?_⟩
  intro k
  rw [reissuedParams, sortPairs_filter_key, List.filter_append, List.filter_append]
  congr 1
  rw [baseParams, sortPairs_filter_key]

set_option maxRecDepth 1000000 in
set_option maxHeartbeats 16000000 in
/-- Witness for the amended C10 at the concrete C10 run. -/
theorem C10_output_order_w :
    ∃ ps newHash, parseUrlencoded outC10 = ps ++ [(hashKey, newHash)] ∧
      List.Pairwise KLe ps ∧
      (∀ p ∈ ps, p.1 ≠ hashKey) ∧
      ∀ k, ps.filter (fun p => decide (p.1 = k)) =
        (deleteParam (parseUrlencoded inC10) hashKey ++
          [(clientIdKey, ascii "C")]).filter fun p => decide (p.1 = k) :=
  @C10_output_order envS inC10 outC10 (by decide) (verifyInitData_success_eq rfl rfl (by decide))


end CapxTg
